import Mathlib

/-!
Verification development for the url-tools crawler core.

This file gives a shallow embedding of the link-crawling engine of the
repository: the URL normalizer and SSRF gate (server/utils/url-validator.ts
and the shared link utilities), the link extractor, the retrying fetcher,
the redirect resolver, and the BFS frontier scheduler of the two streaming
route handlers (scrape-links-stream.post.ts and the duplicate loop in
scrape-json.post.ts).

Modelling conventions:
- JavaScript strings are Lean String values, manipulated at the character
  list level.
- The WHATWG URL parser used by the source (the platform's URL class) is
  modelled by parseUrlChars / serializeChars below for absolute
  scheme://host/path?query#fragment URLs without userinfo, port or IPv6
  bracket syntax; inputs are assumed already in canonical form (lowercase
  scheme and host, percent-encoded), so the model's parse and serialization
  perform no further canonicalization.  This matches the fragment of URL
  behaviour the crawler exercises.
- Network effects (fetch, HEAD requests) are oracles passed as functions;
  the cheerio HTML/XML parse of a body is likewise passed as the already
  parsed content (loc texts and anchor elements).
- JS numbers in the request are modelled per the declared interface types:
  integers as Int / Nat, the requests-per-second rate as a rational.
-/

namespace UrlTools

/-! ## URL record model (platform URL class, as used by the source) -/

/-- Character allowed inside the host component of an absolute URL in this
model: anything except the delimiters the WHATWG parser treats specially. -/
def isHostChar (c : Char) : Bool :=
  !(c = ':' || c = '/' || c = '?' || c = '#' || c = '@' || c = '[' || c = ']' || c = '\\')

/-- Character allowed inside the path component: anything except the query
and fragment delimiters. -/
def isPathChar (c : Char) : Bool :=
  !(c = '?' || c = '#')

/-- Parsed absolute URL, the model of the platform URL object fields the
source reads (protocol, hostname, pathname, search, hash). -/
structure UrlRec where
  scheme : List Char
  host : List Char
  path : List Char
  query : Option (List Char)
  fragment : Option (List Char)
deriving DecidableEq

/-- Serialization of a parsed URL, the model of the href getter. -/
def serializeChars (r : UrlRec) : List Char :=
  r.scheme ++ [':', '/', '/'] ++ r.host ++ r.path ++
    (match r.query with
      | some q => '?' :: q
      | none => []) ++
    (match r.fragment with
      | some f => '#' :: f
      | none => [])

/-- Parse the part of a URL following the path: nothing, a query, or a
query and fragment, or just a fragment. -/
def parseAfterPath (scheme host path : List Char) : List Char → Option UrlRec
  | [] => some ⟨scheme, host, path, none, none⟩
  | '?' :: rest =>
    let q := rest.takeWhile (fun c => c ≠ '#')
    match rest.dropWhile (fun c => c ≠ '#') with
    | [] => some ⟨scheme, host, path, some q, none⟩
    | _ :: f => some ⟨scheme, host, path, some q, some f⟩
  | '#' :: rest => some ⟨scheme, host, path, none, some rest⟩
  | _ => none

/-- Parse the part of a URL following the host.  An empty or absent path
serializes as the root path, as the WHATWG parser does for special
schemes. -/
def parseAfterHost (scheme host : List Char) : List Char → Option UrlRec
  | [] => some ⟨scheme, host, ['/'], none, none⟩
  | '/' :: rest =>
    parseAfterPath scheme host ('/' :: rest.takeWhile isPathChar) (rest.dropWhile isPathChar)
  | '?' :: rest => parseAfterPath scheme host ['/'] ('?' :: rest)
  | '#' :: rest => parseAfterPath scheme host ['/'] ('#' :: rest)
  | _ => none

/-- Parse the part of a URL following the scheme: the literal ://, then
the host, then the rest. -/
def parseSchemeRest (scheme : List Char) : List Char → Option UrlRec
  | ':' :: '/' :: '/' :: rest2 =>
    let host := rest2.takeWhile isHostChar
    if host = [] then none
    else parseAfterHost scheme host (rest2.dropWhile isHostChar)
  | _ => none

/-- Model of the platform URL constructor on an absolute URL string,
restricted to scheme://host... shapes (no userinfo, port or IPv6
brackets); returns none where the constructor would throw. -/
def parseUrlChars (l : List Char) : Option UrlRec :=
  let scheme := l.takeWhile (fun c => c ≠ ':')
  if scheme = [] ∨ ¬ (scheme.all Char.isAlpha = true) then none
  else parseSchemeRest scheme (l.dropWhile (fun c => c ≠ ':'))

/-- Strip the fragment, serialize, and strip one trailing slash unless the
path is the root: the body of normalizeUrl in the link utilities, at the
character-list level. -/
def normalizeRec (r : UrlRec) : List Char :=
  let r2 : UrlRec := { r with fragment := none }
  let href := serializeChars r2
  if href.getLast? = some '/' ∧ r2.path ≠ ['/'] then href.dropLast else href

/-- normalizeUrl from the link utilities, on an absolute URL string
(no base argument): parse, drop the fragment, re-serialize, and remove a
trailing slash except at the root path; none when parsing fails. -/
def normalizeUrl (url : String) : Option String :=
  (parseUrlChars url.toList).map (fun r => String.mk (normalizeRec r))

/-- normalizeUrl with an optional base, as used on extracted hrefs:
absolute hrefs parse directly, root-relative hrefs (leading slash) resolve
against the base URL's scheme and host; other relative forms are outside
this model. -/
def normalizeUrlWith (url : String) (baseUrl : String) : Option String :=
  match parseUrlChars url.toList with
  | some r => some (String.mk (normalizeRec r))
  | none =>
    match parseUrlChars baseUrl.toList, url.toList with
    | some rb, '/' :: rest =>
      (parseAfterHost rb.scheme rb.host ('/' :: rest)).map (fun r => String.mk (normalizeRec r))
    | _, _ => none

/-- Hostname of a parsed URL string, or none when parsing fails; models
reading hostname from a freshly constructed URL object. -/
def hostnameOf (s : String) : Option String :=
  (parseUrlChars s.toList).map (fun r => String.mk r.host)

/-- Total variant of hostnameOf used inside the crawl loop, where every
target URL has already gone through normalizeUrl and therefore parses. -/
def hostnameOfD (s : String) : String :=
  (hostnameOf s).getD ""

/-- Pathname of a parsed URL string, used to state theorems about the
trailing-slash stripping. -/
def pathnameOf (s : String) : Option String :=
  (parseUrlChars s.toList).map (fun r => String.mk r.path)

/-- Whether the string ends with a slash character, the model of the JS
endsWith check inside normalizeUrl. -/
def endsWithSlash (s : String) : Bool :=
  s.toList.getLast? = some '/'

/-- The serialized query and fragment suffix of a URL record, used to
state the serialization round trip. -/
def tailQF (query fragment : Option (List Char)) : List Char :=
  (match query with
    | some q => '?' :: q
    | none => []) ++
  (match fragment with
    | some f => '#' :: f
    | none => [])

/-- Well-formedness of a URL record: exactly the shape of records the
parser produces, and the shape on which serialization round-trips. -/
def WFUrl (r : UrlRec) : Prop :=
  r.scheme ≠ [] ∧ r.scheme.all Char.isAlpha = true ∧
  r.host ≠ [] ∧ (∀ c ∈ r.host, isHostChar c = true) ∧
  r.path.head? = some '/' ∧ (∀ c ∈ r.path, isPathChar c = true) ∧
  (∀ q, r.query = some q → ∀ c ∈ q, c ≠ '#')

/-- Whether the character list starts with the given needle. -/
def leadsChars : List Char → List Char → Bool
  | _, [] => true
  | [], _ :: _ => false
  | h :: t, n :: ns => h = n && leadsChars t ns

/-- Whether the character list contains the needle as a contiguous run;
models the JS includes check. -/
def containsChars : List Char → List Char → Bool
  | [], needle => needle.isEmpty
  | h :: t, needle => leadsChars (h :: t) needle || containsChars t needle

/-- Whether one string starts with another, at the character level. -/
def startsStr (hay needle : String) : Bool :=
  leadsChars hay.toList needle.toList

/-- Whether one string contains another, at the character level. -/
def containsStr (hay needle : String) : Bool :=
  containsChars hay.toList needle.toList

/-- Whether one string ends with another, at the character level. -/
def endsStr (hay needle : String) : Bool :=
  leadsChars hay.toList.reverse needle.toList.reverse

/-! ## Outbound gate (server/utils/url-validator.ts) -/

/-- Model of the regular expression test for the 172.16.0.0/12 private
range used by the gate: matches a hostname starting with 172. followed by
a second octet 16 to 31 and a dot. -/
def is172Private : List Char → Bool
  | '1' :: '7' :: '2' :: '.' :: '1' :: c :: '.' :: _ =>
    c = '6' || c = '7' || c = '8' || c = '9'
  | '1' :: '7' :: '2' :: '.' :: '2' :: c :: '.' :: _ => c.isDigit
  | '1' :: '7' :: '2' :: '.' :: '3' :: c :: '.' :: _ => c = '0' || c = '1'
  | _ => false

/-- isAllowedUrl from server/utils/url-validator.ts: allow only http and
https, and reject localhost, loopback, RFC1918 private ranges, link-local
and metadata addresses; false when URL parsing fails. -/
def isAllowedUrl (url : String) : Bool :=
  match parseUrlChars url.toList with
  | none => false
  | some r =>
    let protocol := String.mk (r.scheme.map Char.toLower) ++ ":"
    if protocol ≠ "http:" ∧ protocol ≠ "https:" then false
    else
      let hostname := String.mk (r.host.map Char.toLower)
      if hostname = "localhost" ∨ hostname = "127.0.0.1" ∨ hostname = "::1" then false
      else if endsStr hostname ".localhost" = true then false
      else if startsStr hostname "10." = true then false
      else if startsStr hostname "192.168." = true then false
      else if is172Private hostname.toList = true then false
      else if startsStr hostname "169.254." = true then false
      else if hostname = "0.0.0.0" then false
      else true

/-! ## Link extractor (link utilities: isSitemap, extractLinks) -/

/-- JS String.prototype.trim, at the character level: whitespace stripped
from both ends. -/
def jsTrim (s : String) : String :=
  String.mk (((s.toList.dropWhile Char.isWhitespace).reverse.dropWhile
    Char.isWhitespace).reverse)

/-- JS String.prototype.toLowerCase, at the character level. -/
def jsToLower (s : String) : String :=
  String.mk (s.toList.map Char.toLower)

/-- Split a character list at every separator character satisfying p;
worker carrying the current segment reversed. -/
def splitByAux (p : Char → Bool) : List Char → List Char → List (List Char)
  | [], acc => [acc.reverse]
  | c :: rest, acc =>
    if p c then acc.reverse :: splitByAux p rest [] else splitByAux p rest (c :: acc)

/-- Split a string at every character satisfying p, the model of the JS
split calls of the source. -/
def splitBy (p : Char → Bool) (s : String) : List String :=
  (splitByAux p s.toList []).map String.mk

/-- isSitemap from the link utilities: the trimmed, lowercased body starts
with an XML declaration or mentions a urlset or sitemapindex opening
tag. -/
def isSitemap (html : String) : Bool :=
  let t := jsToLower (jsTrim html)
  startsStr t "<?xml" || containsStr t "<urlset" || containsStr t "<sitemapindex"

/-- Predicate written from the specification wording, for comparison with
the source's isSitemap: the leading bytes indicate an XML document AND the
body contains a urlset or sitemapindex root.  This is the spec-side
definition of a refinement claim, not a translation of the source. -/
def specSitemapMode (html : String) : Bool :=
  let t := jsToLower (jsTrim html)
  startsStr t "<?xml" && (containsStr t "<urlset" || containsStr t "<sitemapindex")

/-- One discovered link, as produced by the extractor. -/
structure LinkInfo where
  sourceUrl : String
  targetUrl : String
  anchorText : String
  rel : List String
  isInternal : Bool
deriving DecidableEq

/-- isInternalLink from the link utilities: hostname equality of the two
parsed URLs; false when either parse fails (the catch branch). -/
def isInternalLink (baseUrl targetUrl : String) : Bool :=
  match parseUrlChars baseUrl.toList, parseUrlChars targetUrl.toList with
  | some b, some t => b.host = t.host
  | _, _ => false

/-- Worker for the sitemap extraction: walk the loc element texts in
order, trimming, normalizing, skipping empties and failures, and
deduplicating within the call via the seen accumulator. -/
def sitemapLoop (baseUrl : String) : List String → List String → List LinkInfo
  | [], _ => []
  | loc :: rest, seen =>
    let t := jsTrim loc
    if t = "" then sitemapLoop baseUrl rest seen
    else
      match normalizeUrl t with
      | none => sitemapLoop baseUrl rest seen
      | some n =>
        if n ∈ seen then sitemapLoop baseUrl rest seen
        else
          { sourceUrl := baseUrl, targetUrl := n, anchorText := "", rel := [],
            isInternal := isInternalLink baseUrl n } :: sitemapLoop baseUrl rest (n :: seen)

/-- extractLinksFromSitemap from the link utilities, over the list of loc
element texts produced by the external XML parse of the body. -/
def extractLinksFromSitemap (locs : List String) (baseUrl : String) : List LinkInfo :=
  sitemapLoop baseUrl locs []

/-- One anchor element of the external HTML parse: its href attribute,
its text content, and its rel attribute (empty string when absent). -/
structure Anchor where
  href : String
  text : String
  relAttr : String
deriving DecidableEq

/-- Whitespace-split rel attribute tokens, dropping empties. -/
def splitRel (s : String) : List String :=
  (splitBy Char.isWhitespace s).filter (fun t => !t.isEmpty)

/-- Worker for the HTML extraction: skip javascript:, mailto:, tel: and
pure-fragment hrefs, resolve and normalize against the page URL, drop
failures, deduplicate within the call, truncate anchor text to 200
characters, and classify internal by hostname equality. -/
def htmlLoop (baseUrl : String) : List Anchor → List String → List LinkInfo
  | [], _ => []
  | a :: rest, seen =>
    if startsStr a.href "javascript:" || startsStr a.href "mailto:" ||
        startsStr a.href "tel:" || startsStr a.href "#" then
      htmlLoop baseUrl rest seen
    else
      match normalizeUrlWith a.href baseUrl with
      | none => htmlLoop baseUrl rest seen
      | some n =>
        if n ∈ seen then htmlLoop baseUrl rest seen
        else
          { sourceUrl := baseUrl, targetUrl := n,
            anchorText := String.mk ((jsTrim a.text).toList.take 200),
            rel := splitRel a.relAttr,
            isInternal := isInternalLink baseUrl n } :: htmlLoop baseUrl rest (n :: seen)

/-- extractLinks HTML branch, over the anchor elements produced by the
external HTML parse of the body. -/
def extractLinksFromHtml (anchors : List Anchor) (baseUrl : String) : List LinkInfo :=
  htmlLoop baseUrl anchors []

/-- extractLinks from the link utilities: dispatch on isSitemap between
the sitemap extraction and the HTML anchor extraction.  The body's parse
by the external cheerio library is supplied as the already parsed loc
texts and anchor elements of that same body. -/
def extractLinks (html : String) (locs : List String) (anchors : List Anchor)
    (baseUrl : String) : List LinkInfo :=
  if isSitemap html then extractLinksFromSitemap locs baseUrl
  else extractLinksFromHtml anchors baseUrl

/-! ## Retrying fetcher (fetchWithRetry in both route handlers) -/

/-- Outcome of one raw fetch attempt: a response with its status, or a
thrown transport or timeout failure with its message (non-Error throws
already mapped to the Unknown error string by the handler). -/
inductive AttemptOutcome where
  | ok (status : Int) : AttemptOutcome
  | fail (msg : String) : AttemptOutcome
deriving DecidableEq

/-- Whether an attempt outcome triggers a retry: a server error response
or a thrown failure. -/
def retryTrigger : AttemptOutcome → Prop
  | .ok s => 500 ≤ s
  | .fail _ => True

instance : DecidablePred retryTrigger := fun o =>
  match o with
  | .ok s => inferInstanceAs (Decidable (500 ≤ s))
  | .fail _ => inferInstanceAs (Decidable True)

/-- Worker for fetchWithRetry: att gives the outcome of each attempt
number, k counts the attempts remaining after the current one.  A 5xx
response with attempts remaining retries; with none remaining it is
returned as-is.  A thrown failure retries while attempts remain and is
rethrown on the last attempt (the lastError of the source). -/
def fwrGo (att : Nat → AttemptOutcome) : Nat → Nat → Except String (Int × Nat)
  | attempt, 0 =>
    match att attempt with
    | .ok s => .ok (s, attempt)
    | .fail m => .error m
  | attempt, Nat.succ k =>
    match att attempt with
    | .ok s => if 500 ≤ s then fwrGo att (attempt + 1) k else .ok (s, attempt)
    | .fail _ => fwrGo att (attempt + 1) k

/-- fetchWithRetry from the route handlers: run attempts 0 through
retries, returning the pair of final status and the attempt index it was
obtained on (the retryCount of the source), or the last failure. -/
def fetchWithRetry (att : Nat → AttemptOutcome) (retries : Nat) : Except String (Int × Nat) :=
  fwrGo att 0 retries

/-! ## Redirect resolver (getRedirectChain in the link utilities) -/

/-- One step of an observed redirect chain. -/
structure RedirectStep where
  url : String
  status : Int
deriving DecidableEq

/-- Result of redirect resolution. -/
structure RedirectResult where
  chain : List RedirectStep
  finalUrl : String
  finalStatus : Int
  error : Option String
deriving DecidableEq

/-- Outcome of one non-following HEAD request: a response with status and
optional Location header, or a thrown failure (timeout flag per the
AbortError check of the source). -/
inductive HopOutcome where
  | resp (status : Int) (location : Option String) : HopOutcome
  | fail (timeout : Bool) (msg : String) : HopOutcome
deriving DecidableEq

/-- Worker for getRedirectChain: remaining counts the redirect hops the
loop may still follow; hop performs the HEAD request and res resolves a
Location value against the current URL (none where the URL constructor
would throw). -/
def grcGo (hop : String → HopOutcome) (res : String → String → Option String) :
    Nat → String → List RedirectStep → RedirectResult
  | 0, currentUrl, chain =>
    { chain := chain, finalUrl := currentUrl, finalStatus := 0,
      error := some "Too many redirects" }
  | Nat.succ k, currentUrl, chain =>
    match hop currentUrl with
    | .fail tmo msg =>
      { chain := chain, finalUrl := currentUrl, finalStatus := 0,
        error := some (if tmo then "Timeout" else msg) }
    | .resp status loc =>
      let chain2 := chain ++ [⟨currentUrl, status⟩]
      if 300 ≤ status ∧ status < 400 then
        match loc with
        | some l =>
          match res l currentUrl with
          | some next => grcGo hop res k next chain2
          | none =>
            { chain := chain2, finalUrl := currentUrl, finalStatus := 0,
              error := some "Invalid URL" }
        | none => { chain := chain2, finalUrl := currentUrl, finalStatus := status, error := none }
      else { chain := chain2, finalUrl := currentUrl, finalStatus := status, error := none }

/-- getRedirectChain from the link utilities, with the hop and Location
resolution oracles and the maximum redirect count (10 at every call
site). -/
def getRedirectChain (hop : String → HopOutcome) (res : String → String → Option String)
    (url : String) (maxRedirects : Nat) : RedirectResult :=
  grcGo hop res maxRedirects url []

/-- formatRedirectChain from the link utilities. -/
def formatRedirectChain (chain : List RedirectStep) : String :=
  String.intercalate " → " (chain.map (fun step => toString step.status))

/-! ## Frontier scheduler (the crawl loop of the streaming handlers) -/

/-- Classification of an emitted result. -/
inductive LinkType where
  | internal : LinkType
  | external : LinkType
deriving DecidableEq

/-- LinkResult, the authoritative output unit of the crawl. -/
structure LinkResult where
  sourceUrl : String
  targetUrl : String
  status : Int
  redirectChain : String
  type : LinkType
  anchorText : String
  rel : String
  depth : Nat
  error : Option String
  retryCount : Option Nat
deriving DecidableEq

/-- One frontier queue entry.  The source never populates sourceUrl at
either push site, so the field is carried but always none. -/
structure FrontierItem where
  url : String
  depth : Nat
  sourceUrl : Option String
deriving DecidableEq

/-- Mutable crawl state: emitted results, visited set, frontier queue. -/
structure CrawlState where
  results : List LinkResult
  visited : List String
  queue : List FrontierItem
deriving DecidableEq

/-- Crawl configuration, fixed for the crawl's duration.  The compiled
regex filter and the path filter are predicates; maxDepth is the raw
request integer (the handlers apply no clamp to it). -/
structure CrawlConfig where
  recursive : Bool
  maxUrls : Nat
  maxDepth : Int
  sameDomainOnly : Bool
  baseDomains : List String
  urlFilter : Option (String → Bool)
  pathFilter : String → Bool

/-- Network oracle for one crawl: fetchPage is the combined outcome of
fetchWithRetry plus body text plus extractLinks on one frontier URL (the
links of the page and the retryCount, or the thrown failure message), and
redirect is the outcome of getRedirectChain on one target URL. -/
structure CrawlWorld where
  fetchPage : String → Except String (List LinkInfo × Nat)
  redirect : String → RedirectResult

/-- Observable actions of the crawl loop, in order: the rate-limit sleep
before a fetch, a page fetch (with the frontier item's depth and whether
it succeeded), an emitted link result, an emitted per-page error result,
and the half-interval sleep after each emitted link.  Log and progress
events of the SSE stream carry no results and are not modelled. -/
inductive CrawlEvent where
  | sleepRate : CrawlEvent
  | sleepHalf : CrawlEvent
  | fetch (url : String) (depth : Nat) (ok : Bool) : CrawlEvent
  | resultLink (r : LinkResult) : CrawlEvent
  | resultError (r : LinkResult) : CrawlEvent
deriving DecidableEq

/-- Whether a URL passes the compiled regex filter (absent filter passes
everything). -/
def passesUrlFilter (cfg : CrawlConfig) (u : String) : Bool :=
  match cfg.urlFilter with
  | none => true
  | some f => f u

/-- The per-page error LinkResult emitted when fetching a frontier item
throws: status 0, empty chain, unconditionally internal type, no
retryCount. -/
def errorResult (item : FrontierItem) (msg : String) : LinkResult :=
  { sourceUrl := item.sourceUrl.getD item.url, targetUrl := item.url, status := 0,
    redirectChain := "", type := .internal, anchorText := "", rel := "",
    depth := item.depth, error := some msg, retryCount := none }

/-- The LinkResult assembled for one extracted link, tagged with the
current frontier item's depth. -/
def mkLinkResult (srcUrl : String) (depth : Nat) (rc : Nat) (link : LinkInfo)
    (ri : RedirectResult) : LinkResult :=
  { sourceUrl := srcUrl, targetUrl := link.targetUrl, status := ri.finalStatus,
    redirectChain := formatRedirectChain ri.chain,
    type := if link.isInternal then .internal else .external,
    anchorText := link.anchorText, rel := String.intercalate ", " link.rel,
    depth := depth, error := ri.error, retryCount := some rc }

/-- Inner for-loop over one page's extracted links: stop at the URL
budget, apply the regex and path filters to each target, resolve the
redirect chain, emit the result, and enqueue internal links within depth
budget, unvisited, and inside the base domains when same-domain-only. -/
def processLinks (cfg : CrawlConfig) (w : CrawlWorld) (srcUrl : String) (depth : Nat)
    (rc : Nat) : List LinkInfo → CrawlState → CrawlState × List CrawlEvent
  | [], st => (st, [])
  | link :: rest, st =>
    if cfg.maxUrls ≤ st.results.length then (st, [])
    else if ¬ passesUrlFilter cfg link.targetUrl = true then
      processLinks cfg w srcUrl depth rc rest st
    else if ¬ cfg.pathFilter link.targetUrl = true then
      processLinks cfg w srcUrl depth rc rest st
    else
      let r := mkLinkResult srcUrl depth rc link (w.redirect link.targetUrl)
      let st2 : CrawlState :=
        if cfg.recursive = true ∧ link.isInternal = true ∧ (depth : Int) < cfg.maxDepth ∧
            link.targetUrl ∉ st.visited ∧
            (cfg.sameDomainOnly = false ∨ hostnameOfD link.targetUrl ∈ cfg.baseDomains) then
          { results := st.results ++ [r], visited := st.visited ++ [link.targetUrl],
            queue := st.queue ++ [⟨link.targetUrl, depth + 1, none⟩] }
        else
          { results := st.results ++ [r], visited := st.visited, queue := st.queue }
      let out := processLinks cfg w srcUrl depth rc rest st2
      (out.1, CrawlEvent.resultLink r :: CrawlEvent.sleepHalf :: out.2)

/-- The BFS crawl loop, fuel-indexed.  Returns the final state, the event
trace, and whether the loop reached its own exit condition (frontier
exhausted or budget reached) rather than running out of fuel.  Mirrors
the while loop of the streaming handlers with isClosed false throughout
(no cancellation): dequeue the head, apply the regex and path filters to
the item (rejected items are discarded without fetching), sleep the rate
interval when at least one result exists, fetch, then either process the
page's links or emit the single per-page error result. -/
def crawlLoop (cfg : CrawlConfig) (w : CrawlWorld) : Nat → CrawlState →
    CrawlState × List CrawlEvent × Bool
  | 0, st => (st, [], false)
  | Nat.succ fuel, st =>
    match st.queue with
    | [] => (st, [], true)
    | item :: rest =>
      if cfg.maxUrls ≤ st.results.length then (st, [], true)
      else if ¬ passesUrlFilter cfg item.url = true then
        crawlLoop cfg w fuel ⟨st.results, st.visited, rest⟩
      else if ¬ cfg.pathFilter item.url = true then
        crawlLoop cfg w fuel ⟨st.results, st.visited, rest⟩
      else
        let pre : List CrawlEvent := if 0 < st.results.length then [.sleepRate] else []
        match w.fetchPage item.url with
        | .ok pg =>
          let inner := processLinks cfg w item.url item.depth pg.2 pg.1
            ⟨st.results, st.visited, rest⟩
          let out := crawlLoop cfg w fuel inner.1
          (out.1, pre ++ CrawlEvent.fetch item.url item.depth true :: (inner.2 ++ out.2.1),
            out.2.2)
        | .error msg =>
          let r := errorResult item msg
          let out := crawlLoop cfg w fuel ⟨st.results ++ [r], st.visited, rest⟩
          (out.1, pre ++ CrawlEvent.fetch item.url item.depth false ::
            CrawlEvent.resultError r :: out.2.1, out.2.2)

/-! ## Request processing of the two handlers -/

/-- Common shape of the crawl request body, after JSON parsing, for the
fields the crawl loop consumes. -/
structure CrawlRequest where
  urls : List String
  recursive : Bool
  maxUrls : Nat
  maxDepth : Int
  sameDomainOnly : Bool
  urlFilter : Option String
  pathInclude : String
  pathExclude : String

/-- Compiled regex filter of the streaming handler: a present, non-empty
filter string of length at most 200 is compiled (compile models the
RegExp constructor, none on a syntax error); longer strings are
ignored. -/
def buildStreamFilter (f : Option String) (compile : String → Option (String → Bool)) :
    Option (String → Bool) :=
  match f with
  | none => none
  | some s => if s ≠ "" ∧ s.length ≤ 200 then compile s else none

/-- Compiled regex filter of the duplicate JSON handler: any present,
non-empty filter string is compiled, with no length guard. -/
def buildJsonFilter (f : Option String) (compile : String → Option (String → Bool)) :
    Option (String → Bool) :=
  match f with
  | none => none
  | some s => if s ≠ "" then compile s else none

/-- Trailing slashes stripped from a path prefix, as the replace call in
matchesPathFilter does. -/
def stripTrailSlashes (s : String) : String :=
  String.mk (((s.toList).reverse.dropWhile (fun c => c = '/')).reverse)

/-- Comma-separated path prefixes, trimmed, empties dropped. -/
def splitPaths (s : String) : List String :=
  ((splitBy (fun c => c = ',') s).map jsTrim).filter (fun p => !p.isEmpty)

/-- matchesPathFilter of the streaming handler: the URL's pathname must
avoid every exclude prefix and, when includes exist, extend one of them;
unparseable URLs pass. -/
def matchesPathFilter (incs exs : List String) (url : String) : Bool :=
  match parseUrlChars url.toList with
  | none => true
  | some r =>
    let path := String.mk r.path
    if exs.any (fun ex =>
        let p := stripTrailSlashes ex
        path = p || startsStr path (p ++ "/")) then false
    else if incs.isEmpty then true
    else incs.any (fun inc =>
      let p := stripTrailSlashes inc
      path = p || startsStr path (p ++ "/"))

/-- Effective maxUrls of the streaming handler: zero (falsy) raw value
becomes 100, then the result is clamped into 1 to 10000. -/
def clampMaxUrls (raw : Nat) : Nat :=
  min (max (if raw = 0 then 100 else raw) 1) 10000

/-- Crawl configuration built by the streaming handler from the request:
clamped maxUrls, guarded regex filter, path filters, base domains from
the raw seed URLs' hostnames. -/
def mkStreamCfg (req : CrawlRequest) (compile : String → Option (String → Bool)) :
    CrawlConfig :=
  { recursive := req.recursive, maxUrls := clampMaxUrls req.maxUrls,
    maxDepth := req.maxDepth, sameDomainOnly := req.sameDomainOnly,
    baseDomains := req.urls.filterMap hostnameOf,
    urlFilter := buildStreamFilter req.urlFilter compile,
    pathFilter := matchesPathFilter (splitPaths req.pathInclude) (splitPaths req.pathExclude) }

/-- Crawl configuration built by the duplicate JSON handler: raw maxUrls,
unguarded regex filter, no path filter. -/
def mkJsonCfg (req : CrawlRequest) (compile : String → Option (String → Bool)) :
    CrawlConfig :=
  { recursive := req.recursive, maxUrls := req.maxUrls, maxDepth := req.maxDepth,
    sameDomainOnly := req.sameDomainOnly,
    baseDomains := req.urls.filterMap hostnameOf,
    urlFilter := buildJsonFilter req.urlFilter compile,
    pathFilter := fun _ => true }

/-- Seed enqueue loop shared by both handlers, parametrized by the
outbound gate (isAllowedUrl in the streaming handler, trivially true in
the JSON handler): normalize each seed, skip empties, duplicates and
gate-rejected URLs, and push the survivors at depth 0. -/
def seedLoop (gate : String → Bool) : List String → List FrontierItem → List String →
    List FrontierItem × List String
  | [], q, v => (q, v)
  | u :: rest, q, v =>
    match normalizeUrl u with
    | none => seedLoop gate rest q v
    | some n =>
      if n ≠ "" ∧ n ∉ v ∧ gate n = true then
        seedLoop gate rest (q ++ [⟨n, 0, none⟩]) (v ++ [n])
      else seedLoop gate rest q v

/-- Initial crawl state of the streaming handler: seeds gated through
isAllowedUrl. -/
def mkStreamInit (urls : List String) : CrawlState :=
  let sv := seedLoop isAllowedUrl urls [] []
  ⟨[], sv.2, sv.1⟩

/-- Initial crawl state of the duplicate JSON handler: no outbound
gate. -/
def mkJsonInit (urls : List String) : CrawlState :=
  let sv := seedLoop (fun _ => true) urls [] []
  ⟨[], sv.2, sv.1⟩

/-! ## Numeric clamping of the streaming handler (request defaults) -/

/-- Effective maxUrls from the raw request value, with none standing for
an absent or NaN field (falsy like zero). -/
def effMaxUrls (raw : Option Int) : Int :=
  min (max (match raw with
    | none => 100
    | some x => if x = 0 then 100 else x) 1) 10000

/-- Effective requests-per-second rate from the raw request value. -/
def effRateLimit (raw : Option ℚ) : ℚ :=
  max (match raw with
    | none => 2
    | some x => if x = 0 then 2 else x) (1 / 10)

/-- The per-fetch rate-limit delay in milliseconds. -/
def delayMs (rl : ℚ) : ℚ :=
  1000 / rl

/-! ## Trace predicates -/

/-- Number of fetch attempts in a trace. -/
def countFetch (t : List CrawlEvent) : Nat :=
  t.countP (fun e =>
    match e with
    | .fetch _ _ _ => true
    | _ => false)

/-- Number of failed fetch attempts in a trace. -/
def countFetchFail (t : List CrawlEvent) : Nat :=
  t.countP (fun e =>
    match e with
    | .fetch _ _ false => true
    | _ => false)

/-- Number of emitted results (link results and per-page error results)
in a trace. -/
def countResults (t : List CrawlEvent) : Nat :=
  t.countP (fun e =>
    match e with
    | .resultLink _ => true
    | .resultError _ => true
    | _ => false)

/-- Number of emitted per-page error results in a trace. -/
def countResultError (t : List CrawlEvent) : Nat :=
  t.countP (fun e =>
    match e with
    | .resultError _ => true
    | _ => false)

/-- Scan checking the rate-limit discipline the code actually implements:
walking the trace with rs = a result has been emitted and ps = the
previous event was the rate-limit sleep, every fetch must satisfy
ps = rs, that is, a fetch is immediately preceded by the rate-limit sleep
exactly when some result was emitted before it.  Returns none on a
violation. -/
def rateScan : Bool → Bool → List CrawlEvent → Option (Bool × Bool)
  | rs, ps, [] => some (rs, ps)
  | rs, ps, e :: rest =>
    match e with
    | .fetch _ _ _ => if ps = rs then rateScan rs false rest else none
    | .sleepRate => rateScan rs true rest
    | .resultLink _ => rateScan true false rest
    | .resultError _ => rateScan true false rest
    | .sleepHalf => rateScan rs false rest

/-- Scan checking the claimed rate-limit discipline: every fetch except
the very first must be immediately preceded by the rate-limit sleep
(sf = some fetch already happened, ps = previous event was the sleep).
Returns none on a violation. -/
def strictScan : Bool → Bool → List CrawlEvent → Option (Bool × Bool)
  | sf, ps, [] => some (sf, ps)
  | sf, ps, e :: rest =>
    match e with
    | .fetch _ _ _ => if sf = true ∧ ps = false then none else strictScan true false rest
    | .sleepRate => strictScan sf true rest
    | _ => strictScan sf false rest

/-! ## Concrete fixtures for counterexamples and witnesses -/

/-- A crawl request with one seed and the given maxDepth, used by
concrete runs. -/
def reqA (maxDepth : Int) : CrawlRequest :=
  { urls := ["http://e.com/a"], recursive := true, maxUrls := 5, maxDepth := maxDepth,
    sameDomainOnly := false, urlFilter := none, pathInclude := "", pathExclude := "" }

/-- A crawl request with two seeds and no recursion. -/
def reqAB : CrawlRequest :=
  { urls := ["http://e.com/a", "http://e.com/b"], recursive := false, maxUrls := 5,
    maxDepth := 0, sameDomainOnly := false, urlFilter := none, pathInclude := "",
    pathExclude := "" }

/-- A crawl request with one good seed, one gate-rejected seed and no
recursion. -/
def reqGoodBad : CrawlRequest :=
  { urls := ["http://good.com/", "http://127.0.0.1/"], recursive := false, maxUrls := 5,
    maxDepth := 0, sameDomainOnly := false, urlFilter := none, pathInclude := "",
    pathExclude := "" }

/-- A crawl request with one seed and the given regex filter string. -/
def reqFilter (f : Option String) : CrawlRequest :=
  { urls := ["http://e.com/a"], recursive := false, maxUrls := 5, maxDepth := 0,
    sameDomainOnly := false, urlFilter := f, pathInclude := "", pathExclude := "" }

/-- A regex compiler oracle that fails on every pattern. -/
def noCompile : String → Option (String → Bool) :=
  fun _ => none

/-- A regex compiler oracle whose compiled filter rejects every URL. -/
def rejectAll : String → Option (String → Bool) :=
  fun _ => some (fun _ => false)

/-- An internal link from the first seed to a sibling page. -/
def linkB : LinkInfo :=
  { sourceUrl := "http://e.com/a", targetUrl := "http://e.com/b", anchorText := "",
    rel := [], isInternal := true }

/-- An external link from the good seed to the gate-rejected address. -/
def linkBad : LinkInfo :=
  { sourceUrl := "http://good.com/", targetUrl := "http://127.0.0.1/", anchorText := "",
    rel := [], isInternal := false }

/-- A trivial successful redirect resolution. -/
def okRedirect : RedirectResult :=
  { chain := [], finalUrl := "", finalStatus := 200, error := none }

/-- A world where every page fetch succeeds with the given links. -/
def wOf (links : List LinkInfo) : CrawlWorld :=
  { fetchPage := fun _ => .ok (links, 0), redirect := fun _ => okRedirect }

/-- A world where every page fetch throws with the given message. -/
def wFailAll (msg : String) : CrawlWorld :=
  { fetchPage := fun _ => .error msg, redirect := fun _ => okRedirect }

/-! ## List scanning helper lemmas -/

theorem takeWhile_append_eq {α : Type} (p : α → Bool) (xs ys : List α)
    (h1 : ∀ c ∈ xs, p c = true) (h2 : ∀ c, ys.head? = some c → p c = false) :
    (xs ++ ys).takeWhile p = xs ∧ (xs ++ ys).dropWhile p = ys := by
  induction xs with
  | nil =>
    simp only [List.nil_append]
    cases ys with
    | nil => simp
    | cons y t =>
      have hy := h2 y rfl
      simp [List.takeWhile_cons, List.dropWhile_cons, hy]
  | cons x t ih =>
    have hx := h1 x (by simp)
    have ht := ih (fun c hc => h1 c (by simp [hc]))
    simp [List.takeWhile_cons, List.dropWhile_cons, hx, ht.1, ht.2]

theorem dropLast_append_ne_nil {α : Type} (xs : List α) {ys : List α} (h : ys ≠ []) :
    (xs ++ ys).dropLast = xs ++ ys.dropLast := by
  cases ys with
  | nil => exact absurd rfl h
  | cons a t => exact List.dropLast_append_cons

/-! ## Parser well-formedness and round trip -/

theorem parseAfterPath_wf {scheme host path l : List Char} {r : UrlRec}
    (hs1 : scheme ≠ []) (hs2 : scheme.all Char.isAlpha = true)
    (hh1 : host ≠ []) (hh2 : ∀ c ∈ host, isHostChar c = true)
    (hp1 : path.head? = some '/') (hp2 : ∀ c ∈ path, isPathChar c = true)
    (h : parseAfterPath scheme host path l = some r) : WFUrl r := by
  unfold parseAfterPath at h
  split at h
  · cases h
    exact ⟨hs1, hs2, hh1, hh2, hp1, hp2, fun q hq => by cases hq⟩
  · rename_i rest
    split at h
    · cases h
      refine ⟨hs1, hs2, hh1, hh2, hp1, hp2, fun q hq c hc => ?_⟩
      cases hq
      have h3 := List.mem_takeWhile_imp hc
      simpa using h3
    · cases h
      refine ⟨hs1, hs2, hh1, hh2, hp1, hp2, fun q hq c hc => ?_⟩
      cases hq
      have h3 := List.mem_takeWhile_imp hc
      simpa using h3
  · cases h
    exact ⟨hs1, hs2, hh1, hh2, hp1, hp2, fun q hq => by cases hq⟩
  · cases h

theorem parseAfterHost_wf {scheme host l : List Char} {r : UrlRec}
    (hs1 : scheme ≠ []) (hs2 : scheme.all Char.isAlpha = true)
    (hh1 : host ≠ []) (hh2 : ∀ c ∈ host, isHostChar c = true)
    (h : parseAfterHost scheme host l = some r) : WFUrl r := by
  unfold parseAfterHost at h
  split at h
  · cases h
    exact ⟨hs1, hs2, hh1, hh2, rfl, by simp [isPathChar], fun q hq => by cases hq⟩
  · rename_i rest
    refine parseAfterPath_wf hs1 hs2 hh1 hh2 ?_ ?_ h
    · rfl
    · intro c hc
      rcases List.mem_cons.mp hc with hc | hc
      · subst hc; rfl
      · exact List.mem_takeWhile_imp hc
  · refine parseAfterPath_wf hs1 hs2 hh1 hh2 ?_ ?_ h
    · rfl
    · simp [isPathChar]
  · refine parseAfterPath_wf hs1 hs2 hh1 hh2 ?_ ?_ h
    · rfl
    · simp [isPathChar]
  · cases h

theorem parseSchemeRest_wf {scheme l : List Char} {r : UrlRec}
    (hs1 : scheme ≠ []) (hs2 : scheme.all Char.isAlpha = true)
    (h : parseSchemeRest scheme l = some r) : WFUrl r := by
  unfold parseSchemeRest at h
  split at h
  · rename_i rest2
    dsimp only at h
    split at h
    · cases h
    · rename_i hhost
      exact parseAfterHost_wf hs1 hs2 hhost (fun c hc => List.mem_takeWhile_imp hc) h
  · cases h

theorem parse_wf {l : List Char} {r : UrlRec} (h : parseUrlChars l = some r) : WFUrl r := by
  unfold parseUrlChars at h
  dsimp only at h
  split at h
  · cases h
  · rename_i hcond
    push_neg at hcond
    exact parseSchemeRest_wf hcond.1 hcond.2 h

theorem parseAfterPath_rt (scheme host path : List Char) (query fragment : Option (List Char))
    (hq : ∀ q, query = some q → ∀ c ∈ q, c ≠ '#') :
    parseAfterPath scheme host path (tailQF query fragment) =
    some ⟨scheme, host, path, query, fragment⟩ := by
  rcases query with _ | q <;> rcases fragment with _ | f
  · simp [tailQF, parseAfterPath]
  · simp [tailQF, parseAfterPath]
  · have hq1 : ∀ c ∈ q, (fun c => decide (c ≠ '#')) c = true := by
      intro c hc
      simpa using hq q rfl c hc
    have hsp := takeWhile_append_eq (fun c => decide (c ≠ '#')) q [] hq1
      (by intro c hc; simp at hc)
    simp only [List.append_nil] at hsp
    show parseAfterPath scheme host path ('?' :: q ++ []) = _
    simp only [List.append_nil]
    simp only [parseAfterPath]
    rw [hsp.1, hsp.2]
  · have hq1 : ∀ c ∈ q, (fun c => decide (c ≠ '#')) c = true := by
      intro c hc
      simpa using hq q rfl c hc
    have hsp := takeWhile_append_eq (fun c => decide (c ≠ '#')) q ('#' :: f) hq1
      (by intro c hc; simp at hc; subst hc; simp)
    show parseAfterPath scheme host path ('?' :: (q ++ '#' :: f)) = _
    simp only [parseAfterPath]
    rw [hsp.1, hsp.2]

theorem parseAfterHost_extend (scheme host path tail : List Char)
    (hp1 : path.head? = some '/') (hp2 : ∀ c ∈ path, isPathChar c = true)
    (htail : ∀ x, tail.head? = some x → isPathChar x = false) :
    parseAfterHost scheme host (path ++ tail) = parseAfterPath scheme host path tail := by
  cases path with
  | nil => simp at hp1
  | cons c p2 =>
    have hc : c = '/' := by simpa using hp1
    subst hc
    have hp2t : ∀ x ∈ p2, isPathChar x = true := fun x hx => hp2 x (by simp [hx])
    have hsp := takeWhile_append_eq isPathChar p2 tail hp2t htail
    simp only [List.cons_append, parseAfterHost, hsp.1, hsp.2]

theorem qf_head_not_path (query fragment : Option (List Char)) :
    ∀ x, (tailQF query fragment).head? = some x → isPathChar x = false := by
  rcases query with _ | q <;> rcases fragment with _ | f <;> intro x hx <;>
    simp [tailQF] at hx <;> subst hx <;> rfl

theorem serializeChars_decomp (scheme host path : List Char)
    (query fragment : Option (List Char)) :
    serializeChars ⟨scheme, host, path, query, fragment⟩ =
    scheme ++ (':' :: '/' :: '/' :: (host ++ (path ++ tailQF query fragment))) := by
  simp [serializeChars, tailQF, List.append_assoc]

theorem parse_serialize {r : UrlRec} (h : WFUrl r) : parseUrlChars (serializeChars r) = some r := by
  obtain ⟨scheme, host, path, query, fragment⟩ := r
  unfold WFUrl at h
  obtain ⟨hs1, hs2, hh1, hh2, hp1, hp2, hq⟩ := h
  simp only at hs1 hs2 hh1 hh2 hp1 hp2 hq
  rw [serializeChars_decomp]
  have hsalpha : ∀ c ∈ scheme, (fun c => decide (c ≠ ':')) c = true := by
    intro c hc
    have hca := List.all_eq_true.mp hs2 c hc
    simp only [decide_eq_true_eq]
    intro he
    subst he
    exact absurd hca (by decide)
  have hsw := takeWhile_append_eq (fun c => decide (c ≠ ':')) scheme
    (':' :: '/' :: '/' :: (host ++ (path ++ tailQF query fragment))) hsalpha
    (by intro x hx; simp at hx; subst hx; simp)
  unfold parseUrlChars
  dsimp only
  rw [hsw.1, hsw.2, if_neg (by simp [hs1, hs2])]
  simp only [parseSchemeRest]
  have hpd : ∀ x, (path ++ tailQF query fragment).head? = some x → isHostChar x = false := by
    cases path with
    | nil => simp at hp1
    | cons c p2 =>
      have hc : c = '/' := by simpa using hp1
      subst hc
      intro x hx
      simp at hx
      subst hx
      rfl
  have hhw := takeWhile_append_eq isHostChar host (path ++ tailQF query fragment) hh2 hpd
  rw [hhw.1, hhw.2, if_neg hh1]
  rw [parseAfterHost_extend scheme host path (tailQF query fragment) hp1 hp2
    (qf_head_not_path query fragment)]
  exact parseAfterPath_rt scheme host path query fragment hq

theorem getLast?_cons_of_ne_nil {α : Type} (a : α) {l : List α} (h : l ≠ []) :
    (a :: l).getLast? = l.getLast? := by
  have : a :: l = [a] ++ l := rfl
  rw [this, List.getLast?_append_of_ne_nil _ h]

theorem normalizeRec_as_serialize {r : UrlRec} (h : WFUrl r) :
    ∃ r3 : UrlRec, WFUrl r3 ∧ r3.fragment = none ∧ normalizeRec r = serializeChars r3 := by
  obtain ⟨scheme, host, path, query, fragment⟩ := r
  unfold WFUrl at h
  obtain ⟨hs1, hs2, hh1, hh2, hp1, hp2, hq⟩ := h
  simp only at hs1 hs2 hh1 hh2 hp1 hp2 hq
  have hpne : path ≠ [] := by
    intro he
    rw [he] at hp1
    simp at hp1
  unfold normalizeRec
  dsimp only
  by_cases hcond : (serializeChars ⟨scheme, host, path, query, none⟩).getLast? = some '/' ∧
      path ≠ ['/']
  · rw [if_pos hcond]
    rcases query with _ | qq
    · -- no query: the stripped character is the path's last character
      have hA : serializeChars ⟨scheme, host, path, none, none⟩ =
          (scheme ++ ':' :: '/' :: '/' :: host) ++ path := by
        simp [serializeChars, tailQF, List.append_assoc]
      have hlast : path.getLast? = some '/' := by
        have := hcond.1
        rwa [hA, List.getLast?_append_of_ne_nil _ hpne] at this
      obtain ⟨c, p2, hpc⟩ : ∃ c p2, path = c :: p2 := by
        cases path with
        | nil => exact absurd rfl hpne
        | cons c p2 => exact ⟨c, p2, rfl⟩
      have hc : c = '/' := by
        rw [hpc] at hp1
        simpa using hp1
      subst hc
      subst hpc
      have hp2ne : p2 ≠ [] := by
        intro he
        rw [he] at hcond
        exact hcond.2 rfl
      refine ⟨⟨scheme, host, ('/' :: p2).dropLast, none, none⟩, ?_, rfl, ?_⟩
      · refine ⟨hs1, hs2, hh1, hh2, ?_, ?_, fun q hqq => by cases hqq⟩
        · obtain ⟨b, t, hbt⟩ : ∃ b t, p2 = b :: t := by
            cases p2 with
            | nil => exact absurd rfl hp2ne
            | cons b t => exact ⟨b, t, rfl⟩
          subst hbt
          simp [List.dropLast_cons₂]
        · intro x hx
          exact hp2 x (List.dropLast_subset _ hx)
      · rw [hA, dropLast_append_ne_nil _ hpne]
        simp [serializeChars, tailQF, List.append_assoc]
    · -- query present: the stripped character is the query's last character
      have hA : serializeChars ⟨scheme, host, path, some qq, none⟩ =
          (scheme ++ ':' :: '/' :: '/' :: host ++ path) ++ ('?' :: qq) := by
        simp [serializeChars, tailQF, List.append_assoc]
      have hlast : ('?' :: qq).getLast? = some '/' := by
        have := hcond.1
        rwa [hA, List.getLast?_append_of_ne_nil _ (by simp)] at this
      have hqqne : qq ≠ [] := by
        intro he
        rw [he] at hlast
        simp at hlast
      refine ⟨⟨scheme, host, path, some qq.dropLast, none⟩, ?_, rfl, ?_⟩
      · refine ⟨hs1, hs2, hh1, hh2, hp1, hp2, ?_⟩
        intro q hqq c hc
        cases hqq
        exact hq qq rfl c (List.dropLast_subset _ hc)
      · rw [hA, dropLast_append_ne_nil _ (by simp)]
        obtain ⟨b, t, hbt⟩ : ∃ b t, qq = b :: t := by
          cases qq with
          | nil => exact absurd rfl hqqne
          | cons b t => exact ⟨b, t, rfl⟩
        subst hbt
        simp [serializeChars, tailQF, List.append_assoc, List.dropLast_cons₂]
  · rw [if_neg hcond]
    exact ⟨⟨scheme, host, path, query, none⟩, ⟨hs1, hs2, hh1, hh2, hp1, hp2, hq⟩, rfl, rfl⟩

theorem normalizeRec_no_strip {r : UrlRec} (hf : r.fragment = none)
    (hcond : ¬ ((serializeChars r).getLast? = some '/' ∧ r.path ≠ ['/'])) :
    normalizeRec r = serializeChars r := by
  obtain ⟨scheme, host, path, query, fragment⟩ := r
  simp only at hf
  subst hf
  unfold normalizeRec
  dsimp only
  exact if_neg hcond

/-- C9 counterexample: URL normalization is not idempotent.  On the input
https://example.com/a// one application strips a single trailing slash,
giving https://example.com/a/, and a second application strips again,
giving https://example.com/a, so normalize (normalize u) differs from
normalize u. -/
theorem normalizeUrl_idem_cx :
    Option.bind (normalizeUrl "https://example.com/a//") normalizeUrl ≠
      normalizeUrl "https://example.com/a//" ∧
    normalizeUrl "https://example.com/a//" = some "https://example.com/a/" ∧
    normalizeUrl "https://example.com/a/" = some "https://example.com/a" := by
  refine ⟨?_, by decide, by decide⟩
  decide

/-- C9 amended: normalization is idempotent on every URL whose normalized
form does not end with a slash, or ends with a slash only because its
path is the root.  (It can fail only when the normalized form still
carries a trailing slash on a non-root path, as after an input with a
repeated trailing slash or a query ending in a slash.) -/
theorem normalizeUrl_idem_amended (u v : String) (h : normalizeUrl u = some v)
    (h2 : endsWithSlash v = false ∨ pathnameOf v = some "/") :
    normalizeUrl v = some v := by
  unfold normalizeUrl at h
  rcases Option.map_eq_some'.mp h with ⟨r, hr, hv⟩
  have hwf := parse_wf hr
  obtain ⟨r3, hwf3, hf3, heq⟩ := normalizeRec_as_serialize hwf
  rw [heq] at hv
  subst hv
  have htl : (String.mk (serializeChars r3)).toList = serializeChars r3 := rfl
  unfold normalizeUrl
  rw [htl, parse_serialize hwf3]
  have hnostrip : ¬ ((serializeChars r3).getLast? = some '/' ∧ r3.path ≠ ['/']) := by
    intro hcond
    rcases h2 with h2 | h2
    · have hne : ¬ ((serializeChars r3).getLast? = some '/') := by
        simpa [endsWithSlash] using h2
      exact hne hcond.1
    · unfold pathnameOf at h2
      rw [htl, parse_serialize hwf3] at h2
      simp only [Option.map_some', Option.some.injEq] at h2
      have hpr : r3.path = ['/'] := by
        have h3 : r3.path = ("/" : String).data := congrArg String.data h2
        exact h3.trans (by decide)
      exact hcond.2 hpr
  rw [Option.map_some', normalizeRec_no_strip hf3 hnostrip]

/-- C9 witness: a concrete instantiation of the amended idempotence
theorem at an input whose normalized form has no trailing slash. -/
theorem normalizeUrl_idem_amended_witness :
    normalizeUrl "https://example.com/a" = some "https://example.com/a" :=
  normalizeUrl_idem_amended "https://example.com/a/" "https://example.com/a" (by decide)
    (Or.inl (by decide))

/-- C10: in the streaming handler, for every raw request value the
effective maxUrls lies in 1 to 10000 (absent or zero becomes 100), the
effective rate limit is at least one tenth of a request per second
(absent or zero becomes 2), and the per-fetch rate-limit delay is a
positive rational of at most 10000 milliseconds. -/
theorem clamp_bounds (rawM : Option Int) (rawR : Option ℚ) :
    1 ≤ effMaxUrls rawM ∧ effMaxUrls rawM ≤ 10000 ∧
    1 / 10 ≤ effRateLimit rawR ∧
    0 < delayMs (effRateLimit rawR) ∧ delayMs (effRateLimit rawR) ≤ 10000 := by
  have hm1 : 1 ≤ effMaxUrls rawM ∧ effMaxUrls rawM ≤ 10000 := by
    unfold effMaxUrls
    rcases rawM with _ | x
    · constructor <;> norm_num
    · dsimp only
      constructor
      · split <;> omega
      · split <;> omega
  have hr : 1 / 10 ≤ effRateLimit rawR := le_max_right _ _
  have hrpos : 0 < effRateLimit rawR := lt_of_lt_of_le (by norm_num) hr
  refine ⟨hm1.1, hm1.2, hr, ?_, ?_⟩
  · exact div_pos (by norm_num) hrpos
  · unfold delayMs
    rw [div_le_iff₀ hrpos]
    nlinarith [hr]

/-- C4: the retrying fetcher retries an attempt exactly when the outcome
is a 5xx response or a thrown failure and attempts remain: the first
attempt whose response has status below 500 ends the loop immediately and
is returned as-is together with its attempt index, and when every attempt
throws, the failure of the last attempt is the error surfaced, never a
default value. -/
theorem fetchWithRetry_spec (att : Nat → AttemptOutcome) (retries : Nat) :
    (∀ n s, n ≤ retries → (∀ m, m < n → retryTrigger (att m)) → att n = .ok s → s < 500 →
      fetchWithRetry att retries = .ok (s, n)) ∧
    (∀ msg, (∀ m, m ≤ retries → ∃ mm, att m = .fail mm) → att retries = .fail msg →
      fetchWithRetry att retries = .error msg) := by
  have hclean : ∀ (k attempt n : Nat) (s : Int), attempt + k = retries → attempt ≤ n →
      n ≤ retries → (∀ m, attempt ≤ m → m < n → retryTrigger (att m)) → att n = .ok s →
      s < 500 → fwrGo att attempt k = .ok (s, n) := by
    intro k
    induction k with
    | zero =>
      intro attempt n s hk h1 h2 htr hok hs
      have hn : n = attempt := by omega
      subst hn
      simp [fwrGo, hok]
    | succ k ih =>
      intro attempt n s hk h1 h2 htr hok hs
      by_cases hn : attempt = n
      · subst hn
        simp only [fwrGo, hok]
        rw [if_neg (by omega)]
      · have hlt : attempt < n := by omega
        have htrig := htr attempt (le_refl _) hlt
        cases hatt : att attempt with
        | ok s2 =>
          rw [hatt] at htrig
          have h5 : 500 ≤ s2 := htrig
          simp only [fwrGo, hatt]
          rw [if_pos h5]
          exact ih (attempt + 1) n s (by omega) (by omega) h2
            (fun m hm1 hm2 => htr m (by omega) hm2) hok hs
        | fail m =>
          simp only [fwrGo, hatt]
          exact ih (attempt + 1) n s (by omega) (by omega) h2
            (fun m2 hm1 hm2 => htr m2 (by omega) hm2) hok hs
  have hfail : ∀ (k attempt : Nat) (msg : String),
      (∀ m, attempt ≤ m → m ≤ attempt + k → ∃ mm, att m = .fail mm) →
      att (attempt + k) = .fail msg → fwrGo att attempt k = .error msg := by
    intro k
    induction k with
    | zero =>
      intro attempt msg hall hlast
      rw [Nat.add_zero] at hlast
      simp [fwrGo, hlast]
    | succ k ih =>
      intro attempt msg hall hlast
      obtain ⟨mm, hmm⟩ := hall attempt (le_refl _) (by omega)
      simp only [fwrGo, hmm]
      refine ih (attempt + 1) msg (fun m h1 h2 => hall m (by omega) (by omega)) ?_
      rw [show attempt + 1 + k = attempt + (k + 1) by omega]
      exact hlast
  constructor
  · intro n s h1 h2 h3 h4
    exact hclean retries 0 n s (by omega) (by omega) h1 (fun m hm1 hm2 => h2 m hm2) h3 h4
  · intro msg hall hlast
    refine hfail retries 0 msg (fun m h1 h2 => hall m (by omega)) ?_
    simpa using hlast

/-- C4 witness: concrete runs of the retrying fetcher.  A throw then a
503 then a 200 returns the 200 on attempt index 2; two throws with one
retry surface the last failure message. -/
theorem fetchWithRetry_spec_witness :
    fetchWithRetry (fun n => if n = 0 then .fail "boom" else if n = 1 then .ok 503 else .ok 200)
      2 = .ok (200, 2) ∧
    fetchWithRetry (fun n => .fail ("e" ++ toString n)) 1 = .error "e1" := by
  constructor
  · refine (fetchWithRetry_spec
      (fun n => if n = 0 then .fail "boom" else if n = 1 then .ok 503 else .ok 200) 2).1
      2 200 (by omega) ?_ (by decide) (by decide)
    intro m hm
    interval_cases m <;> decide
  · exact (fetchWithRetry_spec (fun n => .fail ("e" ++ toString n)) 1).2 "e1"
      (fun m hm => ⟨"e" ++ toString m, rfl⟩) (by decide)

/-- C5: when redirect resolution observes only redirect responses for 11
consecutive hops, the hop cap of 10 fires: the result has finalStatus 0,
the error Too many redirects, and a partial chain of exactly the 10 steps
performed before the cap. -/
theorem getRedirectChain_cap (hop : String → HopOutcome)
    (res : String → String → Option String) (u : Nat → String) (st : Nat → Int)
    (loc : Nat → String)
    (hh : ∀ i, i < 11 → hop (u i) = .resp (st i) (some (loc i)) ∧ 300 ≤ st i ∧ st i < 400 ∧
      res (loc i) (u i) = some (u (i + 1))) :
    getRedirectChain hop res (u 0) 10 =
      { chain := (List.range 10).map (fun m => ⟨u m, st m⟩), finalUrl := u 10,
        finalStatus := 0, error := some "Too many redirects" } ∧
    ((List.range 10).map (fun m => (⟨u m, st m⟩ : RedirectStep))).length = 10 := by
  have hcap : ∀ (k j : Nat) (chain : List RedirectStep), j + k = 10 →
      grcGo hop res k (u j) chain =
        { chain := chain ++ (List.range k).map (fun m => ⟨u (j + m), st (j + m)⟩),
          finalUrl := u 10, finalStatus := 0, error := some "Too many redirects" } := by
    intro k
    induction k with
    | zero =>
      intro j chain hj
      have hj10 : j = 10 := by omega
      subst hj10
      simp [grcGo]
    | succ k ih =>
      intro j chain hj
      obtain ⟨h1, h2, h3, h4⟩ := hh j (by omega)
      simp only [grcGo, h1]
      rw [if_pos ⟨h2, h3⟩]
      simp only [h4]
      have hih := ih (j + 1) (chain ++ [({ url := u j, status := st j } : RedirectStep)])
        (by omega)
      rw [hih]
      congr 1
      rw [List.range_succ_eq_map, List.map_cons, List.map_map, List.append_assoc,
        List.singleton_append]
      have hfun : (fun m => ({ url := u (j + 1 + m), status := st (j + 1 + m) } : RedirectStep)) =
          ((fun m => ({ url := u (j + m), status := st (j + m) } : RedirectStep)) ∘ Nat.succ) := by
        funext m
        have hidx : j + 1 + m = j + (m + 1) := by omega
        simp [Function.comp, hidx]
      rw [hfun]
      simp
  constructor
  · have h0 := hcap 10 0 [] (by omega)
    unfold getRedirectChain
    rw [h0]
    simp
  · simp

/-- C5 witness: the redirect cap on a concrete self-looping 301. -/
theorem getRedirectChain_cap_witness :
    getRedirectChain (fun _ => .resp 301 (some "x")) (fun _ _ => some "x") "x" 10 =
      { chain := (List.range 10).map (fun _ => ⟨"x", 301⟩), finalUrl := "x", finalStatus := 0,
        error := some "Too many redirects" } :=
  (getRedirectChain_cap (fun _ => .resp 301 (some "x")) (fun _ _ => some "x") (fun _ => "x")
    (fun _ => 301) (fun _ => "x") (fun i _ => ⟨rfl, by norm_num, by norm_num, rfl⟩)).1

theorem sitemapLoop_shape (baseUrl : String) :
    ∀ (locs seen : List String) (l : LinkInfo), l ∈ sitemapLoop baseUrl locs seen →
      l.anchorText = "" ∧ l.rel = [] := by
  intro locs
  induction locs with
  | nil =>
    intro seen l hl
    simp [sitemapLoop] at hl
  | cons x rest ih =>
    intro seen l hl
    unfold sitemapLoop at hl
    dsimp only at hl
    split at hl
    · exact ih seen l hl
    · split at hl
      · exact ih seen l hl
      · rename_i n hnorm
        split at hl
        · exact ih seen l hl
        · rcases List.mem_cons.mp hl with hl | hl
          · subst hl
            exact ⟨rfl, rfl⟩
          · exact ih (n :: seen) l hl

/-- C6 counterexample: the sitemap-mode trigger of the source is the
disjunction of three substring tests, not the spec's condition that the
leading bytes indicate an XML document containing a urlset or
sitemapindex root.  A body starting with an XML declaration whose root is
rss trips isSitemap although the spec-side predicate rejects it, so
extractLinks parses it in sitemap mode and drops an anchor it would have
reported in HTML mode. -/
theorem extractLinks_sitemap_cx :
    isSitemap "<?xml version=\"1.0\"?><rss></rss>" = true ∧
    specSitemapMode "<?xml version=\"1.0\"?><rss></rss>" = false ∧
    extractLinks "<?xml version=\"1.0\"?><rss></rss>" []
      [{ href := "https://a.com/x", text := "t", relAttr := "" }] "https://a.com/" = [] ∧
    extractLinksFromHtml [{ href := "https://a.com/x", text := "t", relAttr := "" }]
      "https://a.com/" ≠ [] := by
  refine ⟨by decide, by decide, ?_, by decide⟩
  unfold extractLinks
  rw [if_pos (by decide)]
  decide

/-- C6 amended: extractLinks parses a body in sitemap mode exactly when
isSitemap holds of it, that is, when the trimmed lowercased body starts
with an XML declaration or contains a urlset or sitemapindex opening tag
anywhere; in sitemap mode every produced link has empty anchor text and
no relation tokens; every other body is parsed as HTML anchors. -/
theorem extractLinks_dispatch (html : String) (locs : List String) (anchors : List Anchor)
    (baseUrl : String) :
    (isSitemap html = true →
      extractLinks html locs anchors baseUrl = extractLinksFromSitemap locs baseUrl) ∧
    (isSitemap html = false →
      extractLinks html locs anchors baseUrl = extractLinksFromHtml anchors baseUrl) ∧
    isSitemap html = (startsStr (jsToLower (jsTrim html)) "<?xml" ||
      containsStr (jsToLower (jsTrim html)) "<urlset" ||
      containsStr (jsToLower (jsTrim html)) "<sitemapindex") ∧
    (∀ l ∈ extractLinksFromSitemap locs baseUrl, l.anchorText = "" ∧ l.rel = []) := by
  refine ⟨?_, ?_, rfl, ?_⟩
  · intro h
    unfold extractLinks
    rw [if_pos h]
  · intro h
    unfold extractLinks
    rw [if_neg (by simp [h])]
  · intro l hl
    exact sitemapLoop_shape baseUrl locs [] l hl

/-- C6 witness: the dispatch equalities of the amended theorem at a
concrete sitemap body and a concrete HTML body. -/
theorem extractLinks_dispatch_witness :
    extractLinks "<urlset><loc>https://a.com/x</loc></urlset>" ["https://a.com/x"] []
      "https://a.com/" = extractLinksFromSitemap ["https://a.com/x"] "https://a.com/" ∧
    extractLinks "<html></html>" [] [] "https://a.com/" =
      extractLinksFromHtml [] "https://a.com/" :=
  ⟨(extractLinks_dispatch "<urlset><loc>https://a.com/x</loc></urlset>" ["https://a.com/x"] []
      "https://a.com/").1 (by decide),
    (extractLinks_dispatch "<html></html>" [] [] "https://a.com/").2.1 (by decide)⟩

/-! ## Inner link-loop invariants -/

theorem processLinks_len (cfg : CrawlConfig) (w : CrawlWorld) (srcUrl : String) (depth rc : Nat) :
    ∀ (links : List LinkInfo) (st : CrawlState), st.results.length ≤ cfg.maxUrls →
      (processLinks cfg w srcUrl depth rc links st).1.results.length ≤ cfg.maxUrls := by
  intro links
  induction links with
  | nil =>
    intro st h
    simpa [processLinks] using h
  | cons link rest ih =>
    intro st h
    simp only [processLinks]
    split
    · exact h
    · rename_i hbudget
      split
      · exact ih st h
      · split
        · exact ih st h
        · split
          · exact ih _ (by simp; omega)
          · exact ih _ (by simp; omega)

theorem processLinks_results (cfg : CrawlConfig) (w : CrawlWorld) (srcUrl : String)
    (depth rc : Nat) :
    ∀ (links : List LinkInfo) (st : CrawlState) (r : LinkResult),
      r ∈ (processLinks cfg w srcUrl depth rc links st).1.results →
      r ∈ st.results ∨ (r.sourceUrl = srcUrl ∧ r.depth = depth ∧
        ∃ l ∈ links, r.targetUrl = l.targetUrl) := by
  intro links
  induction links with
  | nil =>
    intro st r hr
    simp only [processLinks] at hr
    exact Or.inl hr
  | cons link rest ih =>
    intro st r hr
    simp only [processLinks] at hr
    split at hr
    · exact Or.inl hr
    · split at hr
      · rcases ih st r hr with h | ⟨h1, h2, l, hl, h3⟩
        · exact Or.inl h
        · exact Or.inr ⟨h1, h2, l, List.mem_cons_of_mem _ hl, h3⟩
      · split at hr
        · rcases ih st r hr with h | ⟨h1, h2, l, hl, h3⟩
          · exact Or.inl h
          · exact Or.inr ⟨h1, h2, l, List.mem_cons_of_mem _ hl, h3⟩
        · have hgen : ∀ st2 : CrawlState,
              st2.results = st.results ++ [mkLinkResult srcUrl depth rc link
                (w.redirect link.targetUrl)] →
              r ∈ (processLinks cfg w srcUrl depth rc rest st2).1.results →
              r ∈ st.results ∨ (r.sourceUrl = srcUrl ∧ r.depth = depth ∧
                ∃ l ∈ link :: rest, r.targetUrl = l.targetUrl) := by
            intro st2 hst2 hr2
            rcases ih st2 r hr2 with h | ⟨h1, h2, l, hl, h3⟩
            · rw [hst2] at h
              rcases List.mem_append.mp h with h | h
              · exact Or.inl h
              · have hr0 : r = mkLinkResult srcUrl depth rc link (w.redirect link.targetUrl) := by
                  simpa using h
                subst hr0
                exact Or.inr ⟨rfl, rfl, link, List.mem_cons_self _ _, rfl⟩
            · exact Or.inr ⟨h1, h2, l, List.mem_cons_of_mem _ hl, h3⟩
          split at hr
          · exact hgen _ rfl hr
          · exact hgen _ rfl hr

theorem processLinks_queue (cfg : CrawlConfig) (w : CrawlWorld) (srcUrl : String)
    (depth rc : Nat) :
    ∀ (links : List LinkInfo) (st : CrawlState) (i : FrontierItem),
      i ∈ (processLinks cfg w srcUrl depth rc links st).1.queue →
      i ∈ st.queue ∨ (i.depth = depth + 1 ∧ (depth : Int) < cfg.maxDepth ∧
        i.sourceUrl = none ∧ ∃ l ∈ links, i.url = l.targetUrl) := by
  intro links
  induction links with
  | nil =>
    intro st i hi
    simp only [processLinks] at hi
    exact Or.inl hi
  | cons link rest ih =>
    intro st i hi
    simp only [processLinks] at hi
    split at hi
    · exact Or.inl hi
    · split at hi
      · rcases ih st i hi with h | ⟨h1, h2, h2b, l, hl, h3⟩
        · exact Or.inl h
        · exact Or.inr ⟨h1, h2, h2b, l, List.mem_cons_of_mem _ hl, h3⟩
      · split at hi
        · rcases ih st i hi with h | ⟨h1, h2, h2b, l, hl, h3⟩
          · exact Or.inl h
          · exact Or.inr ⟨h1, h2, h2b, l, List.mem_cons_of_mem _ hl, h3⟩
        · split at hi
          · rename_i henq
            rcases ih _ i hi with h | ⟨h1, h2, h2b, l, hl, h3⟩
            · simp only at h
              rcases List.mem_append.mp h with h | h
              · exact Or.inl h
              · have hi0 : i = ⟨link.targetUrl, depth + 1, none⟩ := by simpa using h
                subst hi0
                exact Or.inr ⟨rfl, henq.2.2.1, rfl, link, List.mem_cons_self _ _, rfl⟩
            · exact Or.inr ⟨h1, h2, h2b, l, List.mem_cons_of_mem _ hl, h3⟩
          · rcases ih _ i hi with h | ⟨h1, h2, h2b, l, hl, h3⟩
            · exact Or.inl h
            · exact Or.inr ⟨h1, h2, h2b, l, List.mem_cons_of_mem _ hl, h3⟩

theorem processLinks_events (cfg : CrawlConfig) (w : CrawlWorld) (srcUrl : String)
    (depth rc : Nat) :
    ∀ (links : List LinkInfo) (st : CrawlState) (e : CrawlEvent),
      e ∈ (processLinks cfg w srcUrl depth rc links st).2 →
      (∃ r, e = CrawlEvent.resultLink r) ∨ e = CrawlEvent.sleepHalf := by
  intro links
  induction links with
  | nil =>
    intro st e he
    simp [processLinks] at he
  | cons link rest ih =>
    intro st e he
    simp only [processLinks] at he
    split at he
    · simp at he
    · split at he
      · exact ih st e he
      · split at he
        · exact ih st e he
        · rcases List.mem_cons.mp he with he | he
          · exact Or.inl ⟨_, he⟩
          · rcases List.mem_cons.mp he with he | he
            · exact Or.inr he
            · exact ih _ e he

theorem processLinks_rateScan (cfg : CrawlConfig) (w : CrawlWorld) (srcUrl : String)
    (depth rc : Nat) :
    ∀ (links : List LinkInfo) (st : CrawlState) (rs : Bool),
      rateScan rs false (processLinks cfg w srcUrl depth rc links st).2 =
        some (rs || !(processLinks cfg w srcUrl depth rc links st).2.isEmpty, false) := by
  intro links
  induction links with
  | nil =>
    intro st rs
    simp [processLinks, rateScan]
  | cons link rest ih =>
    intro st rs
    simp only [processLinks]
    split
    · simp [rateScan]
    · split
      · exact ih st rs
      · split
        · exact ih st rs
        · have hstep : ∀ st2 : CrawlState,
              rateScan rs false (CrawlEvent.resultLink (mkLinkResult srcUrl depth rc link
                  (w.redirect link.targetUrl)) :: CrawlEvent.sleepHalf ::
                  (processLinks cfg w srcUrl depth rc rest st2).2) =
                some (true, false) := by
            intro st2
            show rateScan true false (CrawlEvent.sleepHalf ::
              (processLinks cfg w srcUrl depth rc rest st2).2) = some (true, false)
            show rateScan true false (processLinks cfg w srcUrl depth rc rest st2).2 =
              some (true, false)
            rw [ih st2 true]
            simp
          split
          · simp only [hstep]
            simp
          · simp only [hstep]
            simp

theorem processLinks_results_growth (cfg : CrawlConfig) (w : CrawlWorld) (srcUrl : String)
    (depth rc : Nat) :
    ∀ (links : List LinkInfo) (st : CrawlState),
      ∃ newRs, (processLinks cfg w srcUrl depth rc links st).1.results =
        st.results ++ newRs ∧
        (newRs.isEmpty = (processLinks cfg w srcUrl depth rc links st).2.isEmpty) := by
  intro links
  induction links with
  | nil =>
    intro st
    exact ⟨[], by simp [processLinks]⟩
  | cons link rest ih =>
    intro st
    simp only [processLinks]
    split
    · exact ⟨[], by simp⟩
    · split
      · exact ih st
      · split
        · exact ih st
        · have hgen : ∀ st2 : CrawlState,
              st2.results = st.results ++ [mkLinkResult srcUrl depth rc link
                (w.redirect link.targetUrl)] →
              ∃ newRs, (processLinks cfg w srcUrl depth rc rest st2).1.results =
                st.results ++ newRs ∧
                (newRs.isEmpty = (CrawlEvent.resultLink (mkLinkResult srcUrl depth rc link
                  (w.redirect link.targetUrl)) :: CrawlEvent.sleepHalf ::
                  (processLinks cfg w srcUrl depth rc rest st2).2).isEmpty) := by
            intro st2 hst2
            obtain ⟨newRs, h1, h2⟩ := ih st2
            refine ⟨mkLinkResult srcUrl depth rc link (w.redirect link.targetUrl) :: newRs, ?_, ?_⟩
            · rw [h1, hst2]
              simp
            · simp
          split
          · exact hgen _ rfl
          · exact hgen _ rfl

/-! ## Crawl loop invariants -/

theorem mem_pre_sleep {e : CrawlEvent} {c : Prop} [Decidable c]
    (he : e ∈ (if c then [CrawlEvent.sleepRate] else [])) : e = CrawlEvent.sleepRate := by
  split at he
  · simpa using he
  · simp at he

theorem crawl_inv_budget_depth (cfg : CrawlConfig) (w : CrawlWorld) :
    ∀ (fuel : Nat) (st : CrawlState), st.results.length ≤ cfg.maxUrls →
      (∀ i ∈ st.queue, (i.depth : Int) ≤ cfg.maxDepth) →
      (∀ r ∈ st.results, (r.depth : Int) ≤ cfg.maxDepth) →
      (crawlLoop cfg w fuel st).1.results.length ≤ cfg.maxUrls ∧
      (∀ r ∈ (crawlLoop cfg w fuel st).1.results, (r.depth : Int) ≤ cfg.maxDepth) ∧
      (∀ u d ok, CrawlEvent.fetch u d ok ∈ (crawlLoop cfg w fuel st).2.1 →
        (d : Int) ≤ cfg.maxDepth) := by
  intro fuel
  induction fuel with
  | zero =>
    intro st h1 h2 h3
    simp only [crawlLoop]
    exact ⟨h1, h3, by simp⟩
  | succ fuel ih =>
    intro st h1 h2 h3
    obtain ⟨res, vis, queue⟩ := st
    simp only at h1 h2 h3
    cases queue with
    | nil =>
      simp only [crawlLoop]
      exact ⟨h1, h3, by simp⟩
    | cons item rest =>
      have hitem : (item.depth : Int) ≤ cfg.maxDepth := h2 item (List.mem_cons_self _ _)
      have h2r : ∀ i ∈ rest, (i.depth : Int) ≤ cfg.maxDepth :=
        fun i hi => h2 i (List.mem_cons_of_mem _ hi)
      simp only [crawlLoop]
      split
      · exact ⟨h1, h3, by simp⟩
      · rename_i hbudget
        split
        · exact ih ⟨res, vis, rest⟩ h1 h2r h3
        · split
          · exact ih ⟨res, vis, rest⟩ h1 h2r h3
          · cases hfp : w.fetchPage item.url with
            | ok pg =>
              simp only [hfp]
              have hlen2 := processLinks_len cfg w item.url item.depth pg.2 pg.1
                ⟨res, vis, rest⟩ h1
              have hq2 : ∀ i ∈ (processLinks cfg w item.url item.depth pg.2 pg.1
                  ⟨res, vis, rest⟩).1.queue, (i.depth : Int) ≤ cfg.maxDepth := by
                intro i hi
                rcases processLinks_queue cfg w item.url item.depth pg.2 pg.1
                    ⟨res, vis, rest⟩ i hi with h | ⟨hd, hlt, _, _⟩
                · exact h2r i h
                · rw [hd]
                  push_cast
                  omega
              have hr2 : ∀ r ∈ (processLinks cfg w item.url item.depth pg.2 pg.1
                  ⟨res, vis, rest⟩).1.results, (r.depth : Int) ≤ cfg.maxDepth := by
                intro r hr
                rcases processLinks_results cfg w item.url item.depth pg.2 pg.1
                    ⟨res, vis, rest⟩ r hr with h | ⟨_, hd, _⟩
                · exact h3 r h
                · rw [hd]
                  exact hitem
              obtain ⟨ih1, ih2, ih3⟩ := ih _ hlen2 hq2 hr2
              refine ⟨ih1, ih2, ?_⟩
              intro u d ok he
              rcases List.mem_append.mp he with he | he
              · cases mem_pre_sleep he
              · rcases List.mem_cons.mp he with he | he
                · cases he
                  exact hitem
                · rcases List.mem_append.mp he with he | he
                  · rcases processLinks_events cfg w item.url item.depth pg.2 pg.1 _ _ he with
                      ⟨r, hr⟩ | hr <;> simp at hr
                  · exact ih3 u d ok he
            | error msg =>
              simp only [hfp]
              have hres2 : (res ++ [errorResult item msg]).length ≤ cfg.maxUrls := by
                simp
                omega
              have hr2 : ∀ r ∈ res ++ [errorResult item msg], (r.depth : Int) ≤ cfg.maxDepth := by
                intro r hr
                rcases List.mem_append.mp hr with h | h
                · exact h3 r h
                · have : r = errorResult item msg := by simpa using h
                  subst this
                  exact hitem
              obtain ⟨ih1, ih2, ih3⟩ := ih ⟨res ++ [errorResult item msg], vis, rest⟩ hres2 h2r hr2
              refine ⟨ih1, ih2, ?_⟩
              intro u d ok he
              rcases List.mem_append.mp he with he | he
              · cases mem_pre_sleep he
              · rcases List.mem_cons.mp he with he | he
                · cases he
                  exact hitem
                · rcases List.mem_cons.mp he with he | he
                  · simp at he
                  · exact ih3 u d ok he

theorem countResultError_processLinks (cfg : CrawlConfig) (w : CrawlWorld) (srcUrl : String)
    (depth rc : Nat) (links : List LinkInfo) (st : CrawlState) :
    countResultError (processLinks cfg w srcUrl depth rc links st).2 = 0 := by
  rw [countResultError, List.countP_eq_zero]
  intro e he
  rcases processLinks_events cfg w srcUrl depth rc links st e he with ⟨r, hr⟩ | hr <;>
    subst hr <;> simp

theorem countFetchFail_processLinks (cfg : CrawlConfig) (w : CrawlWorld) (srcUrl : String)
    (depth rc : Nat) (links : List LinkInfo) (st : CrawlState) :
    countFetchFail (processLinks cfg w srcUrl depth rc links st).2 = 0 := by
  rw [countFetchFail, List.countP_eq_zero]
  intro e he
  rcases processLinks_events cfg w srcUrl depth rc links st e he with ⟨r, hr⟩ | hr <;>
    subst hr <;> simp

theorem countResultError_pre (c : Prop) [Decidable c] :
    countResultError (if c then [CrawlEvent.sleepRate] else []) = 0 := by
  split <;> simp [countResultError]

theorem countFetchFail_pre (c : Prop) [Decidable c] :
    countFetchFail (if c then [CrawlEvent.sleepRate] else []) = 0 := by
  split <;> simp [countFetchFail]

theorem crawl_err_account (cfg : CrawlConfig) (w : CrawlWorld) :
    ∀ (fuel : Nat) (st : CrawlState),
      countResultError (crawlLoop cfg w fuel st).2.1 =
        countFetchFail (crawlLoop cfg w fuel st).2.1 ∧
      (∀ r, CrawlEvent.resultError r ∈ (crawlLoop cfg w fuel st).2.1 →
        ∃ msg, w.fetchPage r.targetUrl = .error msg ∧ r.error = some msg) := by
  intro fuel
  induction fuel with
  | zero =>
    intro st
    simp [crawlLoop, countResultError, countFetchFail]
  | succ fuel ih =>
    intro st
    obtain ⟨res, vis, queue⟩ := st
    cases queue with
    | nil => simp [crawlLoop, countResultError, countFetchFail]
    | cons item rest =>
      simp only [crawlLoop]
      split
      · simp [countResultError, countFetchFail]
      · split
        · exact ih ⟨res, vis, rest⟩
        · split
          · exact ih ⟨res, vis, rest⟩
          · cases hfp : w.fetchPage item.url with
            | ok pg =>
              simp only [hfp]
              obtain ⟨ih1, ih2⟩ := ih (processLinks cfg w item.url item.depth pg.2 pg.1
                ⟨res, vis, rest⟩).1
              constructor
              · simp only [countResultError, countFetchFail, List.countP_append,
                  List.countP_cons] at ih1 ⊢
                have hpre1 := countResultError_pre
                  (0 < (⟨res, vis, rest⟩ : CrawlState).results.length)
                have hpre2 := countFetchFail_pre
                  (0 < (⟨res, vis, rest⟩ : CrawlState).results.length)
                simp only [countResultError, countFetchFail] at hpre1 hpre2
                have hin1 := countResultError_processLinks cfg w item.url item.depth pg.2 pg.1
                  ⟨res, vis, rest⟩
                have hin2 := countFetchFail_processLinks cfg w item.url item.depth pg.2 pg.1
                  ⟨res, vis, rest⟩
                simp only [countResultError, countFetchFail] at hin1 hin2
                simp [hpre1, hpre2, hin1, hin2, ih1]
              · intro r hr
                rcases List.mem_append.mp hr with hr | hr
                · cases mem_pre_sleep hr
                · rcases List.mem_cons.mp hr with hr | hr
                  · cases hr
                  · rcases List.mem_append.mp hr with hr | hr
                    · rcases processLinks_events cfg w item.url item.depth pg.2 pg.1 _ _ hr with
                        ⟨r2, hr2⟩ | hr2 <;> simp at hr2
                    · exact ih2 r hr
            | error msg =>
              simp only [hfp]
              obtain ⟨ih1, ih2⟩ := ih ⟨res ++ [errorResult item msg], vis, rest⟩
              constructor
              · simp only [countResultError, countFetchFail, List.countP_append,
                  List.countP_cons] at ih1 ⊢
                have hpre1 := countResultError_pre
                  (0 < (⟨res, vis, rest⟩ : CrawlState).results.length)
                have hpre2 := countFetchFail_pre
                  (0 < (⟨res, vis, rest⟩ : CrawlState).results.length)
                simp only [countResultError, countFetchFail] at hpre1 hpre2
                simp [hpre1, hpre2, ih1]
              · intro r hr
                rcases List.mem_append.mp hr with hr | hr
                · cases mem_pre_sleep hr
                · rcases List.mem_cons.mp hr with hr | hr
                  · cases hr
                  · rcases List.mem_cons.mp hr with hr | hr
                    · cases hr
                      exact ⟨msg, hfp, rfl⟩
                    · exact ih2 r hr

theorem crawl_avoid (cfg : CrawlConfig) (w : CrawlWorld) (n : String)
    (hw : ∀ u pg, w.fetchPage u = .ok pg → ∀ l ∈ pg.1, l.targetUrl ≠ n) :
    ∀ (fuel : Nat) (st : CrawlState),
      (∀ i ∈ st.queue, i.url ≠ n ∧ i.sourceUrl = none) →
      (∀ r ∈ st.results, r.sourceUrl ≠ n ∧ r.targetUrl ≠ n) →
      (∀ r ∈ (crawlLoop cfg w fuel st).1.results, r.sourceUrl ≠ n ∧ r.targetUrl ≠ n) ∧
      (∀ u d ok, CrawlEvent.fetch u d ok ∈ (crawlLoop cfg w fuel st).2.1 → u ≠ n) := by
  intro fuel
  induction fuel with
  | zero =>
    intro st h1 h2
    simp only [crawlLoop]
    exact ⟨h2, by simp⟩
  | succ fuel ih =>
    intro st h1 h2
    obtain ⟨res, vis, queue⟩ := st
    simp only at h1 h2
    cases queue with
    | nil =>
      simp only [crawlLoop]
      exact ⟨h2, by simp⟩
    | cons item rest =>
      have hitem : item.url ≠ n := (h1 item (List.mem_cons_self _ _)).1
      have hsrc0 : item.sourceUrl = none := (h1 item (List.mem_cons_self _ _)).2
      have h1r : ∀ i ∈ rest, i.url ≠ n ∧ i.sourceUrl = none :=
        fun i hi => h1 i (List.mem_cons_of_mem _ hi)
      simp only [crawlLoop]
      split
      · exact ⟨h2, by simp⟩
      · split
        · exact ih ⟨res, vis, rest⟩ h1r h2
        · split
          · exact ih ⟨res, vis, rest⟩ h1r h2
          · cases hfp : w.fetchPage item.url with
            | ok pg =>
              simp only [hfp]
              have htgt : ∀ l ∈ pg.1, l.targetUrl ≠ n := hw item.url pg hfp
              have hq2 : ∀ i ∈ (processLinks cfg w item.url item.depth pg.2 pg.1
                  ⟨res, vis, rest⟩).1.queue, i.url ≠ n ∧ i.sourceUrl = none := by
                intro i hi
                rcases processLinks_queue cfg w item.url item.depth pg.2 pg.1
                    ⟨res, vis, rest⟩ i hi with h | ⟨_, _, hnone, l, hl, hurl⟩
                · exact h1r i h
                · refine ⟨?_, hnone⟩
                  rw [hurl]
                  exact htgt l hl
              have hr2 : ∀ r ∈ (processLinks cfg w item.url item.depth pg.2 pg.1
                  ⟨res, vis, rest⟩).1.results, r.sourceUrl ≠ n ∧ r.targetUrl ≠ n := by
                intro r hr
                rcases processLinks_results cfg w item.url item.depth pg.2 pg.1
                    ⟨res, vis, rest⟩ r hr with h | ⟨hsrc, _, l, hl, htgt2⟩
                · exact h2 r h
                · refine ⟨?_, ?_⟩
                  · rw [hsrc]
                    exact hitem
                  · rw [htgt2]
                    exact htgt l hl
              obtain ⟨ih1, ih2⟩ := ih _ hq2 hr2
              refine ⟨ih1, ?_⟩
              intro u d ok he
              rcases List.mem_append.mp he with he | he
              · cases mem_pre_sleep he
              · rcases List.mem_cons.mp he with he | he
                · cases he
                  exact hitem
                · rcases List.mem_append.mp he with he | he
                  · rcases processLinks_events cfg w item.url item.depth pg.2 pg.1 _ _ he with
                      ⟨r2, hr2⟩ | hr2 <;> simp at hr2
                  · exact ih2 u d ok he
            | error msg =>
              simp only [hfp]
              have hr2 : ∀ r ∈ res ++ [errorResult item msg],
                  r.sourceUrl ≠ n ∧ r.targetUrl ≠ n := by
                intro r hr
                rcases List.mem_append.mp hr with h | h
                · exact h2 r h
                · have heq : r = errorResult item msg := by simpa using h
                  subst heq
                  unfold errorResult
                  simp [hsrc0]
                  exact hitem
              obtain ⟨ih1, ih2⟩ := ih ⟨res ++ [errorResult item msg], vis, rest⟩ h1r hr2
              refine ⟨ih1, ?_⟩
              intro u d ok he
              rcases List.mem_append.mp he with he | he
              · cases mem_pre_sleep he
              · rcases List.mem_cons.mp he with he | he
                · cases he
                  exact hitem
                · rcases List.mem_cons.mp he with he | he
                  · cases he
                  · exact ih2 u d ok he

theorem rateScan_append : ∀ (xs ys : List CrawlEvent) (rs ps : Bool),
    rateScan rs ps (xs ++ ys) =
      (rateScan rs ps xs).bind (fun s => rateScan s.1 s.2 ys) := by
  intro xs
  induction xs with
  | nil =>
    intro ys rs ps
    simp [rateScan]
  | cons e t ih =>
    intro ys rs ps
    cases e with
    | sleepRate =>
      simp only [List.cons_append, rateScan]
      exact ih ys rs true
    | sleepHalf =>
      simp only [List.cons_append, rateScan]
      exact ih ys rs false
    | fetch u d ok =>
      simp only [List.cons_append, rateScan]
      split
      · exact ih ys rs false
      · simp
    | resultLink r =>
      simp only [List.cons_append, rateScan]
      exact ih ys true false
    | resultError r =>
      simp only [List.cons_append, rateScan]
      exact ih ys true false

theorem rateScan_pre_fetch (res : List LinkResult) (u : String) (d : Nat) (ok : Bool)
    (evs : List CrawlEvent) :
    rateScan (!res.isEmpty) false
      ((if 0 < res.length then [CrawlEvent.sleepRate] else []) ++
        CrawlEvent.fetch u d ok :: evs) =
    rateScan (!res.isEmpty) false evs := by
  cases res with
  | nil => simp [rateScan]
  | cons a t => simp [rateScan]

theorem crawl_rate (cfg : CrawlConfig) (w : CrawlWorld) :
    ∀ (fuel : Nat) (st : CrawlState),
      ∃ fin, rateScan (!st.results.isEmpty) false (crawlLoop cfg w fuel st).2.1 = some fin := by
  intro fuel
  induction fuel with
  | zero =>
    intro st
    exact ⟨(!st.results.isEmpty, false), by simp [crawlLoop, rateScan]⟩
  | succ fuel ih =>
    intro st
    obtain ⟨res, vis, queue⟩ := st
    cases queue with
    | nil => exact ⟨(!res.isEmpty, false), by simp [crawlLoop, rateScan]⟩
    | cons item rest =>
      simp only [crawlLoop]
      split
      · exact ⟨(!res.isEmpty, false), by simp [rateScan]⟩
      · split
        · exact ih ⟨res, vis, rest⟩
        · split
          · exact ih ⟨res, vis, rest⟩
          · cases hfp : w.fetchPage item.url with
            | ok pg =>
              simp only [hfp]
              obtain ⟨newRs, hgrow, hemp⟩ := processLinks_results_growth cfg w item.url
                item.depth pg.2 pg.1 ⟨res, vis, rest⟩
              obtain ⟨fin, hfin⟩ := ih (processLinks cfg w item.url item.depth pg.2 pg.1
                ⟨res, vis, rest⟩).1
              have hkey : (!(processLinks cfg w item.url item.depth pg.2 pg.1
                  ⟨res, vis, rest⟩).1.results.isEmpty) =
                  (!res.isEmpty || !(processLinks cfg w item.url item.depth pg.2 pg.1
                    ⟨res, vis, rest⟩).2.isEmpty) := by
                rw [hgrow, ← hemp]
                cases res <;> cases newRs <;> simp
              rw [hkey] at hfin
              refine ⟨fin, ?_⟩
              rw [rateScan_pre_fetch res item.url item.depth true
                ((processLinks cfg w item.url item.depth pg.2 pg.1 ⟨res, vis, rest⟩).2 ++
                  (crawlLoop cfg w fuel (processLinks cfg w item.url item.depth pg.2 pg.1
                    ⟨res, vis, rest⟩).1).2.1)]
              rw [rateScan_append,
                processLinks_rateScan cfg w item.url item.depth pg.2 pg.1 ⟨res, vis, rest⟩
                  (!res.isEmpty)]
              simpa using hfin
            | error msg =>
              simp only [hfp]
              obtain ⟨fin, hfin⟩ := ih ⟨res ++ [errorResult item msg], vis, rest⟩
              have hne : (!((⟨res ++ [errorResult item msg], vis, rest⟩ :
                  CrawlState).results.isEmpty)) = true := by simp
              rw [hne] at hfin
              refine ⟨fin, ?_⟩
              rw [rateScan_pre_fetch res item.url item.depth false
                (CrawlEvent.resultError (errorResult item msg) ::
                  (crawlLoop cfg w fuel
                    ⟨res ++ [errorResult item msg], vis, rest⟩).2.1)]
              show rateScan true false
                (crawlLoop cfg w fuel ⟨res ++ [errorResult item msg], vis, rest⟩).2.1 = some fin
              exact hfin

theorem seedLoop_inv (gate : String → Bool) :
    ∀ (urls : List String) (q : List FrontierItem) (v : List String),
      (∀ i ∈ q, gate i.url = true ∧ i.depth = 0 ∧ i.sourceUrl = none) →
      ∀ i ∈ (seedLoop gate urls q v).1, gate i.url = true ∧ i.depth = 0 ∧ i.sourceUrl = none := by
  intro urls
  induction urls with
  | nil =>
    intro q v h i hi
    simpa [seedLoop] using h i hi
  | cons u rest ih =>
    intro q v h i hi
    simp only [seedLoop] at hi
    split at hi
    · exact ih q v h i hi
    · rename_i n hn
      split at hi
      · rename_i hcond
        refine ih _ _ ?_ i hi
        intro j hj
        rcases List.mem_append.mp hj with hj | hj
        · exact h j hj
        · have hj0 : j = ⟨n, 0, none⟩ := by simpa using hj
          subst hj0
          exact ⟨hcond.2.2, rfl, rfl⟩
      · exact ih q v h i hi

theorem mkStreamInit_inv (urls : List String) :
    (mkStreamInit urls).results = [] ∧
    ∀ i ∈ (mkStreamInit urls).queue,
      isAllowedUrl i.url = true ∧ i.depth = 0 ∧ i.sourceUrl = none := by
  refine ⟨rfl, ?_⟩
  intro i hi
  exact seedLoop_inv isAllowedUrl urls [] [] (by simp) i hi

theorem crawl_len (cfg : CrawlConfig) (w : CrawlWorld) :
    ∀ (fuel : Nat) (st : CrawlState), st.results.length ≤ cfg.maxUrls →
      (crawlLoop cfg w fuel st).1.results.length ≤ cfg.maxUrls := by
  intro fuel
  induction fuel with
  | zero =>
    intro st h
    simpa [crawlLoop] using h
  | succ fuel ih =>
    intro st h
    obtain ⟨res, vis, queue⟩ := st
    cases queue with
    | nil => simpa [crawlLoop] using h
    | cons item rest =>
      simp only [crawlLoop]
      split
      · exact h
      · split
        · exact ih ⟨res, vis, rest⟩ h
        · split
          · exact ih ⟨res, vis, rest⟩ h
          · cases hfp : w.fetchPage item.url with
            | ok pg =>
              simp only [hfp]
              exact ih _ (processLinks_len cfg w item.url item.depth pg.2 pg.1
                ⟨res, vis, rest⟩ h)
            | error msg =>
              simp only [hfp]
              refine ih ⟨res ++ [errorResult item msg], vis, rest⟩ ?_
              rename_i hbud _ _
              simp only at h ⊢
              rw [List.length_append]
              simp only [List.length_singleton]
              omega

/-- C1 counterexample: the depth bound of the claim fails for a crawl
request with a negative maxDepth, which the streaming handler does not
clamp: the seed is fetched at depth 0 and its link results carry depth 0,
which exceeds maxDepth = -1. -/
theorem crawl_budget_depth_cx :
    ¬ (∀ r ∈ (crawlLoop (mkStreamCfg (reqA (-1)) noCompile) (wOf [linkB]) 3
        (mkStreamInit (reqA (-1)).urls)).1.results,
      (r.depth : Int) ≤ (mkStreamCfg (reqA (-1)) noCompile).maxDepth) := by
  decide

/-- C1 amended: for every crawl started from seeds at depth 0, the number
of emitted results never exceeds maxUrls, and when maxDepth is
non-negative no emitted result has depth above maxDepth and no frontier
item of depth above maxDepth is ever fetched.  (For negative maxDepth the
depth bound fails, because depth-0 seeds are fetched regardless.) -/
theorem crawl_budget_depth (cfg : CrawlConfig) (w : CrawlWorld) (fuel : Nat) (st : CrawlState)
    (hres : st.results = []) (hq : ∀ i ∈ st.queue, i.depth = 0) (hd : 0 ≤ cfg.maxDepth) :
    (crawlLoop cfg w fuel st).1.results.length ≤ cfg.maxUrls ∧
    (∀ r ∈ (crawlLoop cfg w fuel st).1.results, (r.depth : Int) ≤ cfg.maxDepth) ∧
    (∀ u d ok, CrawlEvent.fetch u d ok ∈ (crawlLoop cfg w fuel st).2.1 →
      (d : Int) ≤ cfg.maxDepth) := by
  apply crawl_inv_budget_depth
  · rw [hres]
    simp
  · intro i hi
    rw [hq i hi]
    exact_mod_cast hd
  · rw [hres]
    simp

/-- C1 witness: the budget and depth bounds at a concrete crawl with
maxDepth 1 and one internal link per page. -/
theorem crawl_budget_depth_witness :
    (crawlLoop (mkStreamCfg (reqA 1) noCompile) (wOf [linkB]) 5
      (mkStreamInit (reqA 1).urls)).1.results.length ≤
      (mkStreamCfg (reqA 1) noCompile).maxUrls ∧
    (∀ r ∈ (crawlLoop (mkStreamCfg (reqA 1) noCompile) (wOf [linkB]) 5
        (mkStreamInit (reqA 1).urls)).1.results,
      (r.depth : Int) ≤ (mkStreamCfg (reqA 1) noCompile).maxDepth) := by
  have h := crawl_budget_depth (mkStreamCfg (reqA 1) noCompile) (wOf [linkB]) 5
    (mkStreamInit (reqA 1).urls) rfl (by decide) (by decide)
  exact ⟨h.1, h.2.1⟩

/-- C2 counterexample: a crawl that runs to natural completion after
fetching one page that yields no links emits zero results although one
fetch attempt was made, so the attempted URL is not accounted for and the
result count differs from the fetch-attempt count. -/
theorem crawl_account_cx :
    (crawlLoop (mkStreamCfg (reqA 0) noCompile) (wOf []) 3
      (mkStreamInit (reqA 0).urls)).2.2 = true ∧
    countFetch (crawlLoop (mkStreamCfg (reqA 0) noCompile) (wOf []) 3
      (mkStreamInit (reqA 0).urls)).2.1 = 1 ∧
    countResults (crawlLoop (mkStreamCfg (reqA 0) noCompile) (wOf []) 3
      (mkStreamInit (reqA 0).urls)).2.1 = 0 ∧
    countResults (crawlLoop (mkStreamCfg (reqA 0) noCompile) (wOf []) 3
      (mkStreamInit (reqA 0).urls)).2.1 ≠
      countFetch (crawlLoop (mkStreamCfg (reqA 0) noCompile) (wOf []) 3
        (mkStreamInit (reqA 0).urls)).2.1 := by
  refine ⟨by decide, by decide, by decide, by decide⟩

/-- C2 amended: each URL on which a page fetch was attempted and failed
is accounted for exactly once, by a result carrying that URL and the
non-empty failure message — the number of error results equals the number
of failed fetch attempts.  A successful fetch contributes one result per
accepted extracted link (possibly zero or several), so the total emitted
count is bounded by maxUrls but does not in general equal the number of
fetch attempts. -/
theorem crawl_err_accounting (cfg : CrawlConfig) (w : CrawlWorld) (fuel : Nat)
    (st : CrawlState) (hres : st.results = [])
    (herr : ∀ u m, w.fetchPage u = .error m → m ≠ "") :
    countResultError (crawlLoop cfg w fuel st).2.1 =
      countFetchFail (crawlLoop cfg w fuel st).2.1 ∧
    (∀ r, CrawlEvent.resultError r ∈ (crawlLoop cfg w fuel st).2.1 →
      ∃ msg, w.fetchPage r.targetUrl = .error msg ∧ r.error = some msg ∧ msg ≠ "") ∧
    (crawlLoop cfg w fuel st).1.results.length ≤ cfg.maxUrls := by
  obtain ⟨h1, h2⟩ := crawl_err_account cfg w fuel st
  refine ⟨h1, ?_, ?_⟩
  · intro r hr
    obtain ⟨msg, hm1, hm2⟩ := h2 r hr
    exact ⟨msg, hm1, hm2, herr _ msg hm1⟩
  · refine crawl_len cfg w fuel st ?_
    rw [hres]
    simp

/-- C2 witness: the failed-fetch accounting at a concrete crawl whose
only page fetch throws. -/
theorem crawl_err_accounting_witness :
    countResultError (crawlLoop (mkStreamCfg (reqA 0) noCompile) (wFailAll "ECONNREFUSED") 3
      (mkStreamInit (reqA 0).urls)).2.1 =
      countFetchFail (crawlLoop (mkStreamCfg (reqA 0) noCompile) (wFailAll "ECONNREFUSED") 3
        (mkStreamInit (reqA 0).urls)).2.1 ∧
    (∀ r, CrawlEvent.resultError r ∈ (crawlLoop (mkStreamCfg (reqA 0) noCompile)
        (wFailAll "ECONNREFUSED") 3 (mkStreamInit (reqA 0).urls)).2.1 →
      ∃ msg, (wFailAll "ECONNREFUSED").fetchPage r.targetUrl = .error msg ∧
        r.error = some msg ∧ msg ≠ "") := by
  have h := crawl_err_accounting (mkStreamCfg (reqA 0) noCompile) (wFailAll "ECONNREFUSED") 3
    (mkStreamInit (reqA 0).urls) rfl
    (by
      intro u m hm
      cases hm
      decide)
  exact ⟨h.1, h.2.1⟩

/-- C3 counterexample: the Outbound Gate rejects http://127.0.0.1/ as a
seed, yet when a fetched page links to that address the crawl emits a
LinkResult whose targetUrl is exactly that URL — discovered links are not
gated, so the rejected seed URL can appear in emitted results. -/
theorem crawl_gate_cx :
    isAllowedUrl "http://127.0.0.1/" = false ∧
    ((crawlLoop (mkStreamCfg reqGoodBad noCompile) (wOf [linkBad]) 3
      (mkStreamInit reqGoodBad.urls)).1.results.map (fun r => r.targetUrl)) =
      ["http://127.0.0.1/"] := by
  refine ⟨by decide, by decide⟩

/-- C3 amended: a seed URL whose normalized form the Outbound Gate
rejects is never enqueued and never fetched, and provided no fetched page
links to it, it appears in no emitted result, neither as sourceUrl nor as
targetUrl.  (When a fetched page does link to it, it can appear as a
targetUrl, because discovered links are not passed through the gate.) -/
theorem crawl_gate_avoid (cfg : CrawlConfig) (w : CrawlWorld) (fuel : Nat)
    (urls : List String) (n : String) (hgate : isAllowedUrl n = false)
    (hw : ∀ u pg, w.fetchPage u = .ok pg → ∀ l ∈ pg.1, l.targetUrl ≠ n) :
    (∀ i ∈ (mkStreamInit urls).queue, i.url ≠ n) ∧
    (∀ r ∈ (crawlLoop cfg w fuel (mkStreamInit urls)).1.results,
      r.sourceUrl ≠ n ∧ r.targetUrl ≠ n) ∧
    (∀ u d ok, CrawlEvent.fetch u d ok ∈ (crawlLoop cfg w fuel (mkStreamInit urls)).2.1 →
      u ≠ n) := by
  obtain ⟨hres0, hq0⟩ := mkStreamInit_inv urls
  have hqn : ∀ i ∈ (mkStreamInit urls).queue, i.url ≠ n ∧ i.sourceUrl = none := by
    intro i hi
    obtain ⟨hg, _, hs⟩ := hq0 i hi
    refine ⟨?_, hs⟩
    intro he
    rw [he] at hg
    rw [hg] at hgate
    cases hgate
  obtain ⟨h1, h2⟩ := crawl_avoid cfg w n hw fuel (mkStreamInit urls) hqn
    (by rw [hres0]; simp)
  exact ⟨fun i hi => (hqn i hi).1, h1, h2⟩

/-- C3 witness: with a world whose pages carry no links, the rejected
seed http://127.0.0.1/ appears nowhere in the crawl. -/
theorem crawl_gate_avoid_witness :
    (∀ i ∈ (mkStreamInit reqGoodBad.urls).queue, i.url ≠ "http://127.0.0.1/") ∧
    (∀ r ∈ (crawlLoop (mkStreamCfg reqGoodBad noCompile) (wOf []) 3
        (mkStreamInit reqGoodBad.urls)).1.results,
      r.sourceUrl ≠ "http://127.0.0.1/" ∧ r.targetUrl ≠ "http://127.0.0.1/") ∧
    (∀ u d ok, CrawlEvent.fetch u d ok ∈ (crawlLoop (mkStreamCfg reqGoodBad noCompile)
        (wOf []) 3 (mkStreamInit reqGoodBad.urls)).2.1 → u ≠ "http://127.0.0.1/") :=
  crawl_gate_avoid (mkStreamCfg reqGoodBad noCompile) (wOf []) 3 reqGoodBad.urls
    "http://127.0.0.1/" (by decide)
    (by
      intro u pg h l hl
      cases h
      simp at hl)

/-- C7 counterexample: the claimed discipline — every page fetch except
the very first immediately preceded by the rate-limit sleep — fails when
an earlier page produced no results: the code gates the sleep on the
result count, so the second fetch of this crawl follows the first with no
sleep between them. -/
theorem crawl_rate_cx :
    (crawlLoop (mkStreamCfg reqAB noCompile) (wOf []) 3
      (mkStreamInit reqAB.urls)).2.1 =
      [CrawlEvent.fetch "http://e.com/a" 0 true, CrawlEvent.fetch "http://e.com/b" 0 true] ∧
    strictScan false false (crawlLoop (mkStreamCfg reqAB noCompile) (wOf []) 3
      (mkStreamInit reqAB.urls)).2.1 = none := by
  refine ⟨by decide, by decide⟩

/-- C7 amended: in every crawl the rate-limit sleep immediately precedes
a page fetch exactly when at least one result has already been emitted —
the sleep is gated on the emitted-result count, not on whether a fetch
already happened, so a fetch after result-less pages is not preceded by a
sleep. -/
theorem crawl_rate_discipline (cfg : CrawlConfig) (w : CrawlWorld) (fuel : Nat)
    (st : CrawlState) (hres : st.results = []) :
    ∃ fin, rateScan false false (crawlLoop cfg w fuel st).2.1 = some fin := by
  have h := crawl_rate cfg w fuel st
  rw [hres] at h
  simpa using h

/-- C7 witness: the rate discipline scan accepts the trace of a concrete
crawl with a failing page followed by a successful one. -/
theorem crawl_rate_discipline_witness :
    ∃ fin, rateScan false false (crawlLoop (mkStreamCfg reqAB noCompile)
      (wFailAll "timeout") 3 (mkStreamInit reqAB.urls)).2.1 = some fin :=
  crawl_rate_discipline (mkStreamCfg reqAB noCompile) (wFailAll "timeout") 3
    (mkStreamInit reqAB.urls) rfl

set_option maxRecDepth 4000 in
/-- C8 counterexample: the length guard exists only in the streaming
handler.  The duplicate JSON handler compiles a 201-character filter and
applies it: with a filter that rejects every URL, its crawl performs no
fetch at all, while the same request without the filter fetches the seed —
so a 201-length filter is not ignored there and the crawl does not
proceed unfiltered. -/
theorem urlFilter_guard_cx :
    (buildStreamFilter (some (String.mk (List.replicate 201 'a'))) rejectAll).isNone = true ∧
    (buildJsonFilter (some (String.mk (List.replicate 201 'a'))) rejectAll).isSome = true ∧
    countFetch (crawlLoop (mkJsonCfg (reqFilter (some (String.mk (List.replicate 201 'a'))))
      rejectAll) (wOf []) 3 (mkJsonInit ["http://e.com/a"])).2.1 = 0 ∧
    countFetch (crawlLoop (mkJsonCfg (reqFilter none) rejectAll) (wOf []) 3
      (mkJsonInit ["http://e.com/a"])).2.1 = 1 := by
  refine ⟨by decide, by decide, by decide, by decide⟩

/-- C8 amended: in the streaming handler, a syntactically valid filter of
exactly 200 characters is compiled into the configuration and a frontier
item failing it is skipped without being fetched, while a 201-character
filter is ignored — the built configuration is identical to one with no
filter, so the crawl proceeds unfiltered rather than erroring.  The
duplicate JSON handler has no length guard and compiles a 201-character
filter. -/
theorem urlFilter_guard (s : String) (compile : String → Option (String → Bool))
    (p : String → Bool) (hc : compile s = some p) :
    (s.length = 200 → buildStreamFilter (some s) compile = some p) ∧
    (s.length = 201 → ∀ req : CrawlRequest, req.urlFilter = some s →
      mkStreamCfg req compile = mkStreamCfg { req with urlFilter := none } compile) ∧
    (s.length = 201 → buildJsonFilter (some s) compile = some p) ∧
    (∀ (cfg : CrawlConfig) (w : CrawlWorld) (fuel : Nat) (item : FrontierItem)
      (rest : List FrontierItem) (res : List LinkResult) (vis : List String),
      cfg.urlFilter = some p → p item.url = false → ¬ cfg.maxUrls ≤ res.length →
      crawlLoop cfg w (fuel + 1) ⟨res, vis, item :: rest⟩ =
        crawlLoop cfg w fuel ⟨res, vis, rest⟩) := by
  have hsne : s.length = 200 ∨ s.length = 201 → s ≠ "" := by
    intro h he
    subst he
    rcases h with h | h <;> simp at h
  refine ⟨?_, ?_, ?_, ?_⟩
  · intro h200
    show (if s ≠ "" ∧ s.length ≤ 200 then compile s else none) = some p
    rw [if_pos ⟨hsne (Or.inl h200), by omega⟩]
    exact hc
  · intro h201 req hreq
    have hnone : buildStreamFilter (some s) compile = none := by
      show (if s ≠ "" ∧ s.length ≤ 200 then compile s else none) = none
      rw [if_neg]
      intro hcond
      omega
    unfold mkStreamCfg
    rw [hreq, hnone]
    rfl
  · intro h201
    show (if s ≠ "" then compile s else none) = some p
    rw [if_pos (hsne (Or.inr h201))]
    exact hc
  · intro cfg w fuel item rest res vis hfil hpf hbud
    have hpass : passesUrlFilter cfg item.url = false := by
      unfold passesUrlFilter
      rw [hfil]
      exact hpf
    simp only [crawlLoop]
    rw [if_neg hbud, if_pos (by rw [hpass]; simp)]

set_option maxRecDepth 4000 in
/-- C8 witness: the guard at concrete 200- and 201-character filters and
the skip of a concretely filtered frontier item. -/
theorem urlFilter_guard_witness :
    buildStreamFilter (some (String.mk (List.replicate 200 'a')))
      (fun _ => some (fun _ => false)) = some (fun _ => false) ∧
    mkStreamCfg (reqFilter (some (String.mk (List.replicate 201 'a'))))
      (fun _ => some (fun _ => false)) =
      mkStreamCfg { reqFilter (some (String.mk (List.replicate 201 'a'))) with
        urlFilter := none } (fun _ => some (fun _ => false)) ∧
    buildJsonFilter (some (String.mk (List.replicate 201 'a')))
      (fun _ => some (fun _ => false)) = some (fun _ => false) := by
  refine ⟨?_, ?_, ?_⟩
  · exact (urlFilter_guard (String.mk (List.replicate 200 'a'))
      (fun _ => some (fun _ => false)) (fun _ => false) rfl).1 (by decide)
  · exact (urlFilter_guard (String.mk (List.replicate 201 'a'))
      (fun _ => some (fun _ => false)) (fun _ => false) rfl).2.1 (by decide)
      (reqFilter (some (String.mk (List.replicate 201 'a')))) rfl
  · exact (urlFilter_guard (String.mk (List.replicate 201 'a'))
      (fun _ => some (fun _ => false)) (fun _ => false) rfl).2.2.1 (by decide)

end UrlTools
